import Mathlib

/-!
# Directory listing core (`pkg/filesystem/directory_posix_cgo.c`)

A shallow embedding of `read_content_names`, `free_content_names`,
`read_contents` and `free_contents`.

* The process state the four functions touch is a `World`: the live heap
  blocks, the open descriptors, `errno` and the trace of library calls made.
* Everything the operating system decides is read from an `Env`: whether an
  allocation succeeds, what `fcntl`, `fdopendir`, `readdir`, `closedir` and
  `fstatat` answer.
* A slot of the name array is `uninit` (never written), `null`, or a pointer
  to a name block; `realloc` hands back the new slots as `uninit`.
* The C `int` counters `result_count` and `result_capacity` are natural
  numbers checked against `INT_MAX`: the doubling of line 69 and the
  increment of line 98 are undefined when their result exceeds `INT_MAX`.
  Return codes are `Int`. Byte counts (`size_t`) are taken wide enough for
  `INT_MAX` pointers.
* Undefined behaviour (`readdir` on the NULL stream, signed overflow, a store
  outside the array) ends a run with `Outcome.undefined`.
-/

namespace DirectoryPosix

/-- Heap block identifier; the null pointer is `none` of `Option Ptr`. -/
abbrev Ptr := Nat

/-- File descriptor number. -/
abbrev Fd := Nat

/-- Directory entry name, the `d_name` of a `struct dirent`. -/
abbrev Name := String

/-- Initial capacity of the name array (line 18). -/
def _INITIAL_NAME_CAPACITY : Nat := 15

/-- Rate at which name storage grows (line 21). -/
def _NAME_CAPACITY_GROWTH_FACTOR : Nat := 2

/-- The largest value of a C `int` (32 bits). -/
def INT_MAX : Nat := 2147483647

/-- The errno value of a missing path. -/
def ENOENT : Nat := 2

/-- Abridged `struct stat`; `calloc` yields the all-zero record. -/
structure Stat where
  st_ino : Nat
  st_mode : Nat
  st_size : Nat
deriving DecidableEq, Repr

/-- The record of a zero-filled allocation. -/
def Stat.zero : Stat := ⟨0, 0, 0⟩

/-- One `const char *` cell of the name array. -/
inductive Slot where
  | uninit
  | null
  | name (p : Ptr) (s : Name)
deriving DecidableEq, Repr

/-- The name array: its block and the contents of every slot of the block. -/
structure NameArray where
  ptr : Ptr
  slots : List Slot
deriving DecidableEq, Repr

/-- The metadata array: its block and its cells. -/
structure MetaArray where
  ptr : Ptr
  cells : List Stat
deriving DecidableEq, Repr

/-- Library calls, as recorded in the trace. A stream is named by the
descriptor it owns; `none` is the NULL stream. Sizes are counted in array
elements. -/
inductive Event where
  | calloc (n : Nat) (res : Option Ptr)
  | realloc (p : Ptr) (n : Nat) (res : Option Ptr)
  | malloc (res : Option Ptr)
  | free (p : Ptr)
  | free_wild
  | fcntl_dupfd (fd : Fd) (res : Option Fd)
  | fdopendir (fd : Fd) (ok : Bool)
  | close (fd : Fd)
  | readdir (stream : Option Fd)
  | rewinddir (stream : Option Fd)
  | closedir (stream : Option Fd)
  | fstatat (fd : Fd) (path : Name)
deriving DecidableEq, Repr

/-- Answer of one `fstatat` call. -/
inductive StatResult where
  | ok (st : Stat)
  | fail (code : Nat)
deriving DecidableEq, Repr

/-- What the operating system decides during a call. -/
structure Env where
  /-- Whether the n-th allocation request of the run (calloc, realloc or
  malloc, counted from 0) succeeds. -/
  alloc_ok : Nat → Bool
  /-- Result of `fcntl(directory, F_DUPFD_CLOEXEC, 0)`; `none` is failure. -/
  dup : Option Fd
  /-- Whether `fdopendir` succeeds. -/
  fdopendir_ok : Bool
  /-- The raw entries `readdir` yields, in order. -/
  entries : List Name
  /-- The errno the fetch that yields no entry leaves: 0 at a clean end. -/
  readdir_errno : Nat
  /-- Whether `closedir` reports success. -/
  closedir_ok : Bool
  /-- The errno `closedir` leaves behind, when not 0. -/
  closedir_errno : Nat
  /-- Answer of the q-th metadata query of the run, made for the given name. -/
  fstatat : Nat → Name → StatResult

/-- The process state. -/
structure World where
  live : List Ptr
  next : Ptr
  allocs : Nat
  queries : Nat
  fds : List Fd
  errno : Nat
  trace : List Event
deriving DecidableEq, Repr

/-- How a call ends: it returns a code, or it runs into behaviour the C
standard leaves undefined. -/
inductive Outcome where
  | ret (code : Int)
  | undefined
deriving DecidableEq, Repr

namespace World

/-- A process with the given open descriptors and errno and a fresh heap. -/
def init (fds : List Fd) (errno : Nat) : World :=
  { live := [], next := 0, allocs := 0, queries := 0, fds := fds, errno := errno, trace := [] }

def log (w : World) (e : Event) : World :=
  { w with trace := w.trace ++ [e] }

def set_errno (w : World) (e : Nat) : World :=
  { w with errno := e }

/-- One allocation request: a fresh block, or failure. -/
def alloc (env : Env) (w : World) : Option Ptr × World :=
  if env.alloc_ok w.allocs then
    (some w.next, { w with live := w.next :: w.live, next := w.next + 1, allocs := w.allocs + 1 })
  else
    (none, { w with allocs := w.allocs + 1 })

def calloc (env : Env) (n : Nat) (w : World) : Option Ptr × World :=
  let r := w.alloc env
  (r.1, r.2.log (Event.calloc n r.1))

def malloc (env : Env) (w : World) : Option Ptr × World :=
  let r := w.alloc env
  (r.1, r.2.log (Event.malloc r.1))

/-- On success the old block is given up for a new one; on failure the old
block stays as it is. -/
def realloc (env : Env) (p : Ptr) (n : Nat) (w : World) : Option Ptr × World :=
  let r := w.alloc env
  match r.1 with
  | some q => (some q, { r.2 with live := q :: (w.live.erase p), trace := r.2.trace ++ [Event.realloc p n (some q)] })
  | none => (none, r.2.log (Event.realloc p n none))

/-- The call `free(p)` for a non-null `p`. -/
def free (w : World) (p : Ptr) : World :=
  { w with live := w.live.erase p, trace := w.trace ++ [Event.free p] }

/-- The call `free(names[i])` for the slot value read: `free(NULL)` does
nothing, a slot never written is a wild pointer. -/
def free_slot (w : World) (s : Slot) : World :=
  match s with
  | Slot.uninit => w.log Event.free_wild
  | Slot.null => w
  | Slot.name p _ => w.free p

def fcntl_dupfd (env : Env) (fd : Fd) (w : World) : Option Fd × World :=
  match env.dup with
  | some d => (some d, { w with fds := d :: w.fds, trace := w.trace ++ [Event.fcntl_dupfd fd (some d)] })
  | none => (none, w.log (Event.fcntl_dupfd fd none))

/-- On success the stream owns the descriptor; the result is the stream. -/
def fdopendir (env : Env) (fd : Fd) (w : World) : Option Fd × World :=
  if env.fdopendir_ok then (some fd, w.log (Event.fdopendir fd true))
  else (none, w.log (Event.fdopendir fd false))

def close (w : World) (fd : Fd) : World :=
  { w with fds := w.fds.erase fd, trace := w.trace ++ [Event.close fd] }

def rewinddir (w : World) (it : Fd) : World :=
  w.log (Event.rewinddir (some it))

/-- The stream gives up its descriptor whether or not an error is reported. -/
def closedir (env : Env) (it : Fd) (w : World) : Bool × World :=
  (env.closedir_ok,
    { w with fds := w.fds.erase it,
             errno := if env.closedir_errno = 0 then w.errno else env.closedir_errno,
             trace := w.trace ++ [Event.closedir (some it)] })

/-- The fetch that yields an entry. -/
def readdir_entry (w : World) (it : Fd) : World :=
  w.log (Event.readdir (some it))

/-- The fetch that yields no entry. -/
def readdir_end (env : Env) (it : Fd) (w : World) : World :=
  { w with errno := if env.readdir_errno = 0 then w.errno else env.readdir_errno,
           trace := w.trace ++ [Event.readdir (some it)] }

def fstatat (env : Env) (fd : Fd) (path : Name) (w : World) : StatResult × World :=
  let r := env.fstatat w.queries path
  (r, { w with queries := w.queries + 1,
               errno := (match r with | StatResult.ok _ => w.errno | StatResult.fail e => e),
               trace := w.trace ++ [Event.fstatat fd path] })

end World

/-! ## The four functions -/

/-- The loop `for (int i = lo; i < hi; i++) body`. -/
def forLoop {σ : Type} (lo hi : Nat) (body : Nat → σ → σ) (s : σ) : σ :=
  (List.range' lo (hi - lo)).foldl (fun acc i => body i acc) s

/-- The read `names[i]`; reading through NULL or past the block gives no
defined value. -/
def readSlot (names : Option NameArray) (i : Nat) : Slot :=
  match names with
  | none => Slot.uninit
  | some a => a.slots.getD i Slot.uninit

/-- Lines 136-144. -/
def free_content_names (names : Option NameArray) (count : Nat) (w : World) : World :=
  let w1 := forLoop 0 count (fun i acc => acc.free_slot (readSlot names i)) w
  match names with
  | none => w1
  | some a => w1.free a.ptr

/-- Lines 214-220. -/
def free_contents (names : Option NameArray) (metadata : Option MetaArray) (count : Nat)
    (w : World) : World :=
  let w1 := free_content_names names count w
  match metadata with
  | none => w1
  | some m => w1.free m.ptr

/-- The locals `results`, `result_count`, `result_capacity`. -/
structure Locals where
  results : NameArray
  result_count : Nat
  result_capacity : Nat
deriving DecidableEq, Repr

/-- Result of a piece of the enumeration loop: it goes on with new locals,
or the function has returned -1, or it has run into undefined behaviour (an
`int` that overflows, a store outside the array). -/
inductive Step where
  | go (loc : Locals) (w : World)
  | fail (w : World)
  | undefined (w : World)
deriving DecidableEq, Repr

/-- Lines 67-85: resize storage if necessary. The product of line 69 is an
`int`: when it exceeds `INT_MAX` the multiplication overflows, which is
undefined behaviour. -/
def grow (env : Env) (it : Fd) (loc : Locals) (w : World) : Step :=
  if loc.result_count = loc.result_capacity then
    let cap := loc.result_capacity * _NAME_CAPACITY_GROWTH_FACTOR
    if cap ≤ INT_MAX then
      match w.realloc env loc.results.ptr cap with
      | (none, w1) =>
        let w2 := (w1.closedir env it).2
        Step.fail (free_content_names (some loc.results) loc.result_count w2)
      | (some q, w1) =>
        let resized :=
          loc.results.slots ++ List.replicate (cap - loc.results.slots.length) Slot.uninit
        let zeroed := forLoop loc.result_count cap (fun i sl => sl.set i Slot.null) resized
        Step.go ⟨⟨q, zeroed⟩, loc.result_count, cap⟩ w1
    else
      Step.undefined w
  else
    Step.go loc w

/-- Lines 87-98: copy and store the name, increment the count. The store of
line 95 is defined only inside the array, the increment of line 98 only
while the count is below `INT_MAX`. -/
def append (env : Env) (it : Fd) (d_name : Name) (loc : Locals) (w : World) : Step :=
  match w.malloc env with
  | (none, w1) =>
    let w2 := (w1.closedir env it).2
    Step.fail (free_content_names (some loc.results) loc.result_count w2)
  | (some p, w1) =>
    if loc.result_count < loc.results.slots.length then
      if loc.result_count + 1 ≤ INT_MAX then
        Step.go
          ⟨⟨loc.results.ptr, loc.results.slots.set loc.result_count (Slot.name p d_name)⟩,
            loc.result_count + 1, loc.result_capacity⟩ w1
      else
        Step.undefined w1
    else
      Step.undefined w1

/-- Lines 58-99: the body of the enumeration loop for one fetched entry. -/
def loop_body (env : Env) (it : Fd) (d_name : Name) (loc : Locals) (w : World) : Step :=
  if d_name = "." then Step.go loc w
  else if d_name = ".." then Step.go loc w
  else
    match grow env it loc w with
    | Step.fail w1 => Step.fail w1
    | Step.undefined w1 => Step.undefined w1
    | Step.go loc1 w1 => append env it d_name loc1 w1

/-- Lines 58-99: the enumeration loop over the entries the stream yields. -/
def names_loop (env : Env) (it : Fd) : List Name → Locals → World → Step
  | [], loc, w => Step.go loc w
  | e :: rest, loc, w =>
    match loop_body env it e loc (w.readdir_entry it) with
    | Step.fail w1 => Step.fail w1
    | Step.undefined w1 => Step.undefined w1
    | Step.go loc1 w1 => names_loop env it rest loc1 w1

/-- What a call of `read_content_names` leaves: the return code, the values
written to `*names` and `*count` (`none` when they are not written), and the
process state. -/
structure NamesResult where
  ret : Outcome
  out : Option (Option NameArray × Nat)
  world : World
deriving DecidableEq, Repr

/-- Lines 27-31: the locals once the initial storage `p` is allocated. -/
def initial_locals (p : Ptr) : Locals :=
  ⟨⟨p, List.replicate _INITIAL_NAME_CAPACITY Slot.null⟩, 0, _INITIAL_NAME_CAPACITY⟩

/-- Lines 101-133: after the fetch that yields no entry. -/
def names_finish (env : Env) (it : Fd) (loc : Locals) (w : World) : NamesResult :=
  let w6 := w.readdir_end env it
  if w6.errno ≠ 0 then
    let real_errno := w6.errno
    let w7 := (w6.closedir env it).2
    let w8 := w7.set_errno real_errno
    ⟨Outcome.ret (-1), none, free_content_names (some loc.results) loc.result_count w8⟩
  else
    let w7 := w6.rewinddir it
    match w7.closedir env it with
    | (false, w8) =>
      ⟨Outcome.ret (-1), none, free_content_names (some loc.results) loc.result_count w8⟩
    | (true, w8) =>
      if loc.result_count = 0 then
        ⟨Outcome.ret 0, some (none, loc.result_count),
          free_content_names (some loc.results) loc.result_count w8⟩
      else
        ⟨Outcome.ret 0, some (some loc.results, loc.result_count), w8⟩

/-- Lines 23-134. After a failed `fdopendir` (lines 42-45) the code does not
return: it goes on to `readdir` on the NULL stream. A loop that runs into
undefined behaviour ends the run as undefined. -/
def read_content_names (env : Env) (directory : Fd) (w : World) : NamesResult :=
  match w.calloc env _INITIAL_NAME_CAPACITY with
  | (none, w1) => ⟨Outcome.ret (-1), none, w1⟩
  | (some p, w1) =>
    let loc := initial_locals p
    match w1.fcntl_dupfd env directory with
    | (none, w2) =>
      ⟨Outcome.ret (-1), none, free_content_names (some loc.results) loc.result_count w2⟩
    | (some d, w2) =>
      match w2.fdopendir env d with
      | (none, w3) =>
        let w4 := free_content_names (some loc.results) loc.result_count (w3.close d)
        let w5 := w4.set_errno 0
        ⟨Outcome.undefined, none, w5.log (Event.readdir none)⟩
      | (some it, w3) =>
        let w4 := w3.set_errno 0
        match names_loop env it env.entries loc w4 with
        | Step.fail w5 => ⟨Outcome.ret (-1), none, w5⟩
        | Step.undefined w5 => ⟨Outcome.undefined, none, w5⟩
        | Step.go loc1 w5 => names_finish env it loc1 w5

/-- Lines 188-193: drop slot `i` of the first `result_count` slots, moving the
later ones down and nulling the vacated last slot. The caller has already
passed `names[i]` to `free`. -/
def compact (names : NameArray) (i result_count : Nat) : NameArray :=
  let shifted := forLoop i (result_count - 1)
    (fun j sl => sl.set j (sl.getD (j + 1) Slot.uninit)) names.slots
  ⟨names.ptr, shifted.set (result_count - 1) Slot.null⟩

/-- What a call of `read_contents` leaves: the return code, the values written
to `*names`, `*metadata` and `*count` (`none` when they are not written), and
the process state. -/
structure ContentsResult where
  ret : Outcome
  out : Option (Option NameArray × Option MetaArray × Nat)
  world : World
deriving DecidableEq, Repr

/-- Lines 179-211: the metadata loop and the store of the results. The first
argument is the loop variant `result_count - i`. -/
def stat_loop (env : Env) (directory : Fd) :
    Nat → Nat → NameArray → MetaArray → World → ContentsResult
  | 0, i, names, metadata, w => ⟨Outcome.ret 0, some (some names, some metadata, i), w⟩
  | n + 1, i, names, metadata, w =>
    let result_count := i + (n + 1)
    match names.slots.getD i Slot.uninit with
    | Slot.name p s =>
      match w.fstatat env directory s with
      | (StatResult.ok st, w1) =>
        stat_loop env directory n (i + 1) names ⟨metadata.ptr, metadata.cells.set i st⟩ w1
      | (StatResult.fail _, w1) =>
        if w1.errno = ENOENT then
          let w2 := w1.free p
          let names1 := compact names i result_count
          stat_loop env directory n i names1 metadata (w2.set_errno 0)
        else
          ⟨Outcome.ret (-1), none,
            free_contents (some names) (some metadata) result_count w1⟩
    | _ => ⟨Outcome.undefined, none, w⟩

/-- Lines 146-212. -/
def read_contents (env : Env) (directory : Fd) (w : World) : ContentsResult :=
  let r := read_content_names env directory w
  match r.ret with
  | Outcome.undefined => ⟨Outcome.undefined, none, r.world⟩
  | Outcome.ret c =>
    if c < 0 then ⟨Outcome.ret (-1), none, r.world⟩
    else
      match r.out with
      | none => ⟨Outcome.undefined, none, r.world⟩
      | some (results_names, result_count) =>
        if result_count = 0 then
          ⟨Outcome.ret 0, some (none, none, 0),
            free_content_names results_names result_count r.world⟩
        else
          match r.world.calloc env result_count with
          | (none, w1) =>
            ⟨Outcome.ret (-1), none, free_content_names results_names result_count w1⟩
          | (some m, w1) =>
            match results_names with
            | none => ⟨Outcome.undefined, none, w1⟩
            | some names =>
              stat_loop env directory result_count 0 names
                ⟨m, List.replicate result_count Stat.zero⟩ w1

/-- An environment in which every step succeeds. -/
def Env.ok (d : Fd) (entries : List Name) (fstatat : Nat → Name → StatResult) : Env :=
  { alloc_ok := fun _ => true, dup := some d, fdopendir_ok := true, entries := entries,
    readdir_errno := 0, closedir_ok := true, closedir_errno := 0, fstatat := fstatat }

/-! ## Views of the trace and of the outputs -/

/-- The blocks given up so far, in order: by `free`, or by a `realloc` that
succeeded. -/
def releases : List Event → List Ptr
  | [] => []
  | Event.free p :: tr => p :: releases tr
  | Event.realloc p _ (some _) :: tr => p :: releases tr
  | _ :: tr => releases tr

/-- Number of reallocations that succeeded. -/
def reallocs : List Event → Nat
  | [] => 0
  | Event.realloc _ _ (some _) :: tr => reallocs tr + 1
  | _ :: tr => reallocs tr

/-- Number of times descriptor `fd` was closed, by `close` or by closing the
stream that owns it. -/
def closes (fd : Fd) (tr : List Event) : Nat :=
  tr.count (Event.close fd) + tr.count (Event.closedir (some fd))

/-- What a caller reads from `names[0]` .. `names[count-1]`: the string each
slot points to, `none` for a slot that points to no string. -/
def listing (names : Option NameArray) (count : Nat) : List (Option Name) :=
  (List.range count).map fun i =>
    match readSlot names i with
    | Slot.name _ s => some s
    | _ => none

/-- What a caller reads from `metadata[0]` .. `metadata[count-1]`. -/
def records (metadata : Option MetaArray) (count : Nat) : List (Option Stat) :=
  (List.range count).map fun j =>
    match metadata with
    | none => none
    | some m => m.cells.get? j

/-- The slot holding a pointer to the block `x.1` with contents `x.2`. -/
def mkSlot (x : Ptr × Name) : Slot := Slot.name x.1 x.2

/-! ## Invariants -/

/-- Heap accounting: every block handed out so far is either live, or was
released exactly once; and no wild pointer was freed. -/
def Acc (w : World) : Prop :=
  (releases w.trace ++ w.live).Perm (List.range w.next) ∧ Event.free_wild ∉ w.trace

/-- The name array `a` holds exactly the names `items` in its first slots and
NULL in the other slots of its `cap` slots, and the live blocks are the array,
the name blocks and `extra`. -/
structure Inv (w : World) (a : NameArray) (items : List (Ptr × Name)) (cap : Nat)
    (extra : List Ptr) : Prop where
  slots : a.slots = items.map mkSlot ++ List.replicate (cap - items.length) Slot.null
  le : items.length ≤ cap
  pos : 0 < cap
  fits : cap ≤ INT_MAX
  shape : ∃ k, cap = _INITIAL_NAME_CAPACITY * 2 ^ k
  live : w.live.Perm (a.ptr :: (items.map Prod.fst ++ extra))
  acc : Acc w

/-- The step from `w` to `w2` leaves the heap and its accounting alone. -/
def SameHeap (w w2 : World) : Prop :=
  w2.live = w.live ∧ w2.next = w.next ∧ releases w2.trace = releases w.trace
    ∧ (Event.free_wild ∈ w2.trace ↔ Event.free_wild ∈ w.trace)

/-- The loop invariant of the enumeration loop: the locals describe a
well-formed array holding `items`. -/
def LInv (w : World) (loc : Locals) (items : List (Ptr × Name)) (extra : List Ptr) : Prop :=
  Inv w loc.results items loc.result_capacity extra ∧ loc.result_count = items.length

/-- The entries the loop keeps: all but the two dot entries. -/
def kept (entries : List Name) : List Name :=
  entries.filter fun n => decide (n ≠ "." ∧ n ≠ "..")

/-- The events `free` leaves in the trace. -/
def isFree : Event → Bool
  | Event.free _ => true
  | Event.free_wild => true
  | _ => false

/-- The step from `w` to `w2` only releases blocks. -/
def FreesOnly (w w2 : World) : Prop :=
  ∃ ext, w2.trace = w.trace ++ ext ∧ (∀ e ∈ ext, isFree e = true) ∧ w2.fds = w.fds
    ∧ w2.errno = w.errno ∧ w2.queries = w.queries ∧ w2.next = w.next ∧ w2.allocs = w.allocs

/-- The step from `w` to `w2` closes nothing, makes no query and leaves errno
alone. -/
def Quiet (w w2 : World) : Prop :=
  w2.fds = w.fds ∧ w2.errno = w.errno ∧ w2.queries = w.queries
    ∧ ∀ fd, closes fd w2.trace = closes fd w.trace

/-- The step from `w` to `w2` closes the stream `it` once and nothing else. -/
def Closed (it : Fd) (w w2 : World) : Prop :=
  w2.fds = w.fds.erase it ∧ w2.queries = w.queries
    ∧ ∀ fd, closes fd w2.trace = closes fd w.trace + (if fd = it then 1 else 0)

/-- The step from `w` to `w2` closes nothing and makes no query. -/
def Calm (w w2 : World) : Prop :=
  w2.fds = w.fds ∧ w2.queries = w.queries ∧ ∀ fd, closes fd w2.trace = closes fd w.trace

/-- The metadata queries over the names still to be resolved, the q-th query
of the run first: the names whose query succeeds, each with its record, or
`none` when a query fails for a reason other than a missing path. -/
def resolve (env : Env) : Nat → List (Ptr × Name) → Option (List ((Ptr × Name) × Stat))
  | _, [] => some []
  | q, x :: rest =>
    match env.fstatat q x.2 with
    | StatResult.ok st => (resolve env (q + 1) rest).map fun sv => (x, st) :: sv
    | StatResult.fail e => if e = ENOENT then resolve env (q + 1) rest else none

/-- The null-sentinel property of a name array with `capacity` slots of which
the first `count` are in use: the array is a live block of exactly `capacity`
slots, the count is at most the capacity, each slot in use points to a live
name block, and every other slot is NULL. -/
def Sentinel (live : List Ptr) (a : NameArray) (count capacity : Nat) : Prop :=
  a.ptr ∈ live
  ∧ a.slots.length = capacity
  ∧ count ≤ capacity
  ∧ ∀ i, i < capacity →
      (i < count → ∃ p s, a.slots.getD i Slot.uninit = Slot.name p s ∧ p ∈ live)
      ∧ (count ≤ i → a.slots.getD i Slot.uninit = Slot.null)

/-- The array `a` with `count` names in `capacity` slots is well formed in
`w`: the null-sentinel property together with what makes it last, that the
name blocks are distinct live blocks accounted for in the heap. -/
def WellFormed (w : World) (a : NameArray) (count capacity : Nat) : Prop :=
  ∃ items extra, Inv w a items capacity extra ∧ count = items.length

/-! ## Sample runs -/

/-- Sample record for the entry `a`. -/
def meta_a : Stat := ⟨101, 33188, 1⟩

/-- Sample record for the entry `c`. -/
def meta_c : Stat := ⟨103, 33188, 3⟩

/-- Sample directory `a`, `b`, `c` in which `b` has vanished by the time of
its metadata query. -/
def env_b_vanished : Env :=
  Env.ok 4 [".", "..", "a", "b", "c"] fun _ nm =>
    if nm = "a" then StatResult.ok meta_a
    else if nm = "c" then StatResult.ok meta_c
    else StatResult.fail ENOENT

/-- Sample directory `a`, `b`, `c` in which `b` has vanished and the query
for `c` is refused (EACCES). -/
def env_c_refused : Env :=
  Env.ok 4 [".", "..", "a", "b", "c"] fun _ nm =>
    if nm = "a" then StatResult.ok meta_a
    else if nm = "c" then StatResult.fail 13
    else StatResult.fail ENOENT

/-- Sample directory with no entry besides the two dot entries. -/
def env_empty : Env :=
  Env.ok 4 [".", ".."] (fun _ _ => StatResult.fail ENOENT)

/-- Sample directory whose only entry `a` has vanished by the time of its
metadata query. -/
def env_all_vanished : Env :=
  Env.ok 4 [".", "..", "a"] (fun _ _ => StatResult.fail ENOENT)

/-- Sample run in which `fdopendir` fails on the duplicate. -/
def env_open_fails : Env :=
  { Env.ok 4 [".", "..", "a"] (fun _ _ => StatResult.ok meta_a) with fdopendir_ok := false }

theorem releases_append (a b : List Event) : releases (a ++ b) = releases a ++ releases b := by
  induction a with
  | nil => rfl
  | cons e tr ih =>
    cases e with
    | realloc p n res => cases res <;> simp [releases, ih]
    | _ => simp [releases, ih]

theorem reallocs_append (a b : List Event) : reallocs (a ++ b) = reallocs a + reallocs b := by
  induction a with
  | nil => simp [reallocs]
  | cons e tr ih =>
    cases e with
    | realloc p n res => cases res <;> simp [reallocs, ih]; omega
    | _ => simp [reallocs, ih]

theorem closes_append (fd : Fd) (a b : List Event) :
    closes fd (a ++ b) = closes fd a + closes fd b := by
  simp [closes, List.count_append]; omega

theorem forLoop_eq_foldl {σ : Type} (lo n : Nat) (body : Nat → σ → σ) (s : σ) :
    forLoop lo (lo + n) body s = (List.range' lo n).foldl (fun acc i => body i acc) s := by
  simp [forLoop]

theorem forLoop_inv {σ : Type} (P : σ → Prop) (lo hi : Nat) (body : Nat → σ → σ) (s : σ)
    (h0 : P s) (hstep : ∀ i t, P t → P (body i t)) : P (forLoop lo hi body s) := by
  unfold forLoop
  generalize List.range' lo (hi - lo) = l
  induction l generalizing s with
  | nil => simpa using h0
  | cons i l ih => exact ih _ (hstep i s h0)

/-- The zero-fill loop of lines 82-84 nulls exactly the new slots. -/
theorem zero_fill (n : Nat) : ∀ (A B : List Slot), B.length = n →
    forLoop A.length (A.length + n) (fun i sl => sl.set i Slot.null) (A ++ B)
      = A ++ List.replicate n Slot.null := by
  induction n with
  | zero =>
    intro A B hB
    have : B = [] := List.length_eq_zero.mp hB
    simp [forLoop, this]
  | succ n ih =>
    intro A B hB
    obtain ⟨b, B', rfl⟩ : ∃ b B', B = b :: B' := by
      cases B with
      | nil => simp at hB
      | cons b B' => exact ⟨b, B', rfl⟩
    have hB' : B'.length = n := by simpa using hB
    have h := ih (A ++ [Slot.null]) B' hB'
    rw [forLoop_eq_foldl] at h ⊢
    rw [List.range'_succ, List.foldl_cons]
    have hset : (A ++ b :: B').set A.length Slot.null = (A ++ [Slot.null]) ++ B' := by
      simp [List.set_append]
    rw [hset]
    simp only [List.length_append, List.length_singleton] at h
    rw [h]
    simp [List.replicate_succ]

/-- The shift loop of lines 189-191 moves the slots after `i` one place down. -/
theorem shift_down (B : List Slot) : ∀ (A : List Slot) (x : Slot) (C : List Slot),
    ∃ y, forLoop A.length (A.length + B.length)
        (fun j sl => sl.set j (sl.getD (j + 1) Slot.uninit)) (A ++ (x :: (B ++ C)))
      = A ++ (B ++ (y :: C)) := by
  induction B with
  | nil =>
    intro A x C
    exact ⟨x, by simp [forLoop]⟩
  | cons b B ih =>
    intro A x C
    obtain ⟨y, hy⟩ := ih (A ++ [b]) b C
    refine ⟨y, ?_⟩
    rw [forLoop_eq_foldl] at hy ⊢
    rw [List.length_cons, List.range'_succ, List.foldl_cons]
    have hget : (A ++ (x :: (b :: B ++ C))).getD (A.length + 1) Slot.uninit = b := by
      rw [List.getD_append_right _ _ _ _ (by omega)]
      simp
    have hset : (A ++ (x :: (b :: B ++ C))).set A.length b = (A ++ [b]) ++ (b :: (B ++ C)) := by
      simp [List.set_append]
    rw [hget, hset]
    simp only [List.length_append, List.length_singleton] at hy
    rw [hy]
    simp

/-- Compaction (lines 189-193) on slots that hold `A`, then `x`, then `B`,
then `C`: the slot `x` goes, `B` moves down and a NULL follows it. -/
theorem compact_slots (p : Ptr) (A B C : List Slot) (x : Slot) :
    (compact ⟨p, A ++ (x :: (B ++ C))⟩ A.length (A.length + (B.length + 1))).slots
      = A ++ (B ++ (Slot.null :: C)) := by
  obtain ⟨y, hy⟩ := shift_down B A x C
  simp only [compact, Nat.add_sub_cancel, ← Nat.add_assoc]
  rw [hy]
  simp [List.set_append]

/-- The release loop of lines 138-140 over the slots `S` that follow `pre`. -/
theorem free_loop (a : NameArray) (S : List Slot) : ∀ (pre rest : List Slot) (w : World),
    a.slots = pre ++ (S ++ rest) →
    forLoop pre.length (pre.length + S.length)
        (fun i acc => acc.free_slot (readSlot (some a) i)) w
      = S.foldl World.free_slot w := by
  induction S with
  | nil => intro pre rest w _; simp [forLoop]
  | cons x S ih =>
    intro pre rest w h
    have h2 : a.slots = (pre ++ [x]) ++ (S ++ rest) := by simp [h]
    have hx : readSlot (some a) pre.length = x := by
      simp only [readSlot, h]
      rw [List.getD_append_right _ _ _ _ (Nat.le_refl _)]
      simp
    have := ih (pre ++ [x]) rest (w.free_slot x) h2
    rw [forLoop_eq_foldl] at this ⊢
    rw [List.length_cons, List.range'_succ, List.foldl_cons, hx, List.foldl_cons]
    simpa using this

theorem foldl_free_slot_mkSlot (items : List (Ptr × Name)) : ∀ (w : World),
    (items.map mkSlot).foldl World.free_slot w = (items.map Prod.fst).foldl World.free w := by
  induction items with
  | nil => intro w; rfl
  | cons x items ih => intro w; simp [mkSlot, World.free_slot, ih]

theorem Acc.free {w : World} (h : Acc w) {p : Ptr} (hp : p ∈ w.live) : Acc (w.free p) := by
  obtain ⟨h1, h2⟩ := h
  refine ⟨?_, ?_⟩
  · simp only [World.free, releases_append, releases]
    refine List.Perm.trans ?_ h1
    rw [List.append_assoc]
    exact List.Perm.append_left _ (List.perm_cons_erase hp).symm
  · simpa [World.free] using h2

/-- Releasing the blocks `ps`, all of them live, leaves the others live and
keeps the accounting. -/
theorem free_all (ps : List Ptr) : ∀ (w : World) (r : List Ptr),
    w.live.Perm (ps ++ r) → Acc w →
    (ps.foldl World.free w).live.Perm r ∧ Acc (ps.foldl World.free w)
      ∧ (ps.foldl World.free w).next = w.next
      ∧ (ps.foldl World.free w).allocs = w.allocs
      ∧ (ps.foldl World.free w).queries = w.queries
      ∧ (ps.foldl World.free w).fds = w.fds
      ∧ (ps.foldl World.free w).errno = w.errno
      ∧ (ps.foldl World.free w).trace = w.trace ++ ps.map Event.free := by
  induction ps with
  | nil => intro w r h hacc; simpa using ⟨h, hacc⟩
  | cons p ps ih =>
    intro w r h hacc
    have hp : p ∈ w.live := h.symm.subset (by simp)
    have h1 : (w.free p).live.Perm (ps ++ r) := by
      have := h.erase p
      simpa [World.free] using this
    obtain ⟨a1, a2, a3, a4, a5, a6, a7, a8⟩ := ih (w.free p) r h1 (hacc.free hp)
    simp only [List.foldl_cons]
    refine ⟨a1, a2, ?_, ?_, ?_, ?_, ?_, ?_⟩
    · simpa [World.free] using a3
    · simpa [World.free] using a4
    · simpa [World.free] using a5
    · simpa [World.free] using a6
    · simpa [World.free] using a7
    · simpa [World.free] using a8

/-- On a well-formed name array `free_content_names` releases the names in
order and then the array. -/
theorem free_content_names_eq {w : World} {a : NameArray} {items : List (Ptr × Name)}
    {cap : Nat} {extra : List Ptr} (h : Inv w a items cap extra) :
    free_content_names (some a) items.length w
      = (items.map Prod.fst ++ [a.ptr]).foldl World.free w := by
  have := free_loop a (items.map mkSlot) [] (List.replicate (cap - items.length) Slot.null) w
    (by simpa using h.slots)
  simp only [List.length_nil, List.length_map, Nat.zero_add] at this
  simp [free_content_names, this, foldl_free_slot_mkSlot, List.foldl_append]

theorem free_content_names_inv {w : World} {a : NameArray} {items : List (Ptr × Name)}
    {cap : Nat} {extra : List Ptr} (h : Inv w a items cap extra) :
    (free_content_names (some a) items.length w).live.Perm extra
      ∧ Acc (free_content_names (some a) items.length w)
      ∧ (free_content_names (some a) items.length w).next = w.next
      ∧ (free_content_names (some a) items.length w).allocs = w.allocs
      ∧ (free_content_names (some a) items.length w).queries = w.queries
      ∧ (free_content_names (some a) items.length w).fds = w.fds
      ∧ (free_content_names (some a) items.length w).errno = w.errno
      ∧ (free_content_names (some a) items.length w).trace
          = w.trace ++ (items.map Prod.fst ++ [a.ptr]).map Event.free := by
  rw [free_content_names_eq h]
  refine free_all _ w extra ?_ h.acc
  refine h.live.trans ?_
  simp only [List.append_assoc, List.singleton_append]
  exact List.perm_middle.symm

theorem SameHeap.acc {w w2 : World} (h : SameHeap w w2) (ha : Acc w) : Acc w2 := by
  obtain ⟨h1, h2, h3, h4⟩ := h
  refine ⟨?_, ?_⟩
  · rw [h1, h2, h3]; exact ha.1
  · rw [h4]; exact ha.2

theorem SameHeap.inv {w w2 : World} (h : SameHeap w w2) {a : NameArray}
    {items : List (Ptr × Name)} {cap : Nat} {extra : List Ptr} (hi : Inv w a items cap extra) :
    Inv w2 a items cap extra :=
  ⟨hi.slots, hi.le, hi.pos, hi.fits, hi.shape, by rw [h.1]; exact hi.live, h.acc hi.acc⟩

theorem sameHeap_set_errno (w : World) (e : Nat) : SameHeap w (w.set_errno e) := by
  simp [SameHeap, World.set_errno]

theorem sameHeap_readdir_entry (w : World) (it : Fd) : SameHeap w (w.readdir_entry it) := by
  simp [SameHeap, World.readdir_entry, World.log, releases_append, releases]

theorem sameHeap_readdir_end (env : Env) (w : World) (it : Fd) :
    SameHeap w (w.readdir_end env it) := by
  simp [SameHeap, World.readdir_end, releases_append, releases]

theorem sameHeap_rewinddir (w : World) (it : Fd) : SameHeap w (w.rewinddir it) := by
  simp [SameHeap, World.rewinddir, World.log, releases_append, releases]

theorem sameHeap_closedir (env : Env) (w : World) (it : Fd) :
    SameHeap w (w.closedir env it).2 := by
  simp [SameHeap, World.closedir, releases_append, releases]

theorem sameHeap_close (w : World) (fd : Fd) : SameHeap w (w.close fd) := by
  simp [SameHeap, World.close, releases_append, releases]

theorem sameHeap_fcntl_dupfd (env : Env) (w : World) (fd : Fd) :
    SameHeap w (w.fcntl_dupfd env fd).2 := by
  unfold World.fcntl_dupfd
  cases env.dup <;> simp [SameHeap, World.log, releases_append, releases]

theorem sameHeap_fdopendir (env : Env) (w : World) (fd : Fd) :
    SameHeap w (w.fdopendir env fd).2 := by
  unfold World.fdopendir
  cases env.fdopendir_ok <;> simp [SameHeap, World.log, releases_append, releases]

theorem sameHeap_fstatat (env : Env) (w : World) (fd : Fd) (path : Name) :
    SameHeap w (w.fstatat env fd path).2 := by
  simp [SameHeap, World.fstatat, releases_append, releases]

theorem acc_init (fds : List Fd) (errno : Nat) : Acc (World.init fds errno) := by
  simp [Acc, World.init, releases]

/-- A successful allocation hands out the block `w.next`, which joins the
live blocks. -/
theorem alloc_some {env : Env} {w w1 : World} {p : Ptr} (h : w.alloc env = (some p, w1)) :
    p = w.next ∧ w1.live = w.next :: w.live ∧ w1.next = w.next + 1 ∧ w1.trace = w.trace
      ∧ w1.fds = w.fds ∧ w1.errno = w.errno ∧ w1.queries = w.queries
      ∧ w1.allocs = w.allocs + 1 ∧ env.alloc_ok w.allocs = true := by
  unfold World.alloc at h
  split at h
  · next hok =>
    simp only [Prod.mk.injEq, Option.some.injEq] at h
    obtain ⟨h1, h2⟩ := h
    subst h2
    simp [h1.symm, hok]
  · simp at h

theorem alloc_none {env : Env} {w w1 : World} (h : w.alloc env = (none, w1)) :
    w1 = { w with allocs := w.allocs + 1 } ∧ env.alloc_ok w.allocs = false := by
  unfold World.alloc at h
  split at h
  · simp at h
  · next hok =>
    simp only [Prod.mk.injEq, true_and] at h
    exact ⟨h.symm, by simpa using hok⟩

theorem acc_alloc_log {w w1 : World} (e : Event) (ha : Acc w)
    (hlive : w1.live = w.next :: w.live) (hnext : w1.next = w.next + 1)
    (htrace : w1.trace = w.trace ++ [e]) (hrel : releases [e] = [])
    (hwild : e ≠ Event.free_wild) : Acc w1 := by
  refine ⟨?_, ?_⟩
  · rw [hlive, hnext, htrace, releases_append, hrel, List.append_nil, List.range_succ]
    exact (List.perm_middle).trans ((List.Perm.cons _ ha.1).trans (List.perm_append_singleton _ _).symm)
  · rw [htrace]
    simp only [List.mem_append, List.mem_singleton, not_or]
    exact ⟨ha.2, fun h => hwild h.symm⟩

theorem realloc_some {env : Env} {w w1 : World} {p q : Ptr} {n : Nat}
    (h : w.realloc env p n = (some q, w1)) :
    q = w.next ∧ w1.live = w.next :: w.live.erase p ∧ w1.next = w.next + 1
      ∧ w1.trace = w.trace ++ [Event.realloc p n (some w.next)]
      ∧ w1.fds = w.fds ∧ w1.errno = w.errno ∧ w1.queries = w.queries
      ∧ w1.allocs = w.allocs + 1 ∧ env.alloc_ok w.allocs = true := by
  unfold World.realloc at h
  cases ha : w.alloc env with
  | mk r w2 =>
    rw [ha] at h
    cases r with
    | none => simp [World.log] at h
    | some q2 =>
      obtain ⟨a1, a2, a3, a4, a5, a6, a7, a8, a9⟩ := alloc_some ha
      simp only [Prod.mk.injEq, Option.some.injEq] at h
      obtain ⟨h1, h2⟩ := h
      subst h2
      subst a1
      simp [h1.symm, a3, a4, a5, a6, a7, a8, a9]

theorem realloc_none {env : Env} {w w1 : World} {p : Ptr} {n : Nat}
    (h : w.realloc env p n = (none, w1)) :
    SameHeap w w1 ∧ w1.trace = w.trace ++ [Event.realloc p n none]
      ∧ w1.fds = w.fds ∧ w1.errno = w.errno ∧ w1.queries = w.queries
      ∧ w1.allocs = w.allocs + 1 ∧ env.alloc_ok w.allocs = false := by
  unfold World.realloc at h
  cases ha : w.alloc env with
  | mk r w2 =>
    rw [ha] at h
    cases r with
    | some q2 => simp at h
    | none =>
      obtain ⟨a1, a2⟩ := alloc_none ha
      simp only [Prod.mk.injEq, true_and] at h
      subst h
      subst a1
      simp [SameHeap, World.log, releases_append, releases, a2]

theorem malloc_some {env : Env} {w w1 : World} {p : Ptr}
    (h : w.malloc env = (some p, w1)) :
    p = w.next ∧ w1.live = w.next :: w.live ∧ w1.next = w.next + 1
      ∧ w1.trace = w.trace ++ [Event.malloc (some w.next)]
      ∧ w1.fds = w.fds ∧ w1.errno = w.errno ∧ w1.queries = w.queries
      ∧ w1.allocs = w.allocs + 1 ∧ env.alloc_ok w.allocs = true := by
  unfold World.malloc at h
  cases ha : w.alloc env with
  | mk r w2 =>
    rw [ha] at h
    simp only [Prod.mk.injEq] at h
    obtain ⟨h1, h2⟩ := h
    subst h1
    obtain ⟨a1, a2, a3, a4, a5, a6, a7, a8, a9⟩ := alloc_some ha
    subst h2
    subst a1
    simp [World.log, a2, a3, a4, a5, a6, a7, a8, a9]

theorem malloc_none {env : Env} {w w1 : World}
    (h : w.malloc env = (none, w1)) :
    SameHeap w w1 ∧ w1.trace = w.trace ++ [Event.malloc none]
      ∧ w1.fds = w.fds ∧ w1.errno = w.errno ∧ w1.queries = w.queries
      ∧ w1.allocs = w.allocs + 1 ∧ env.alloc_ok w.allocs = false := by
  unfold World.malloc at h
  cases ha : w.alloc env with
  | mk r w2 =>
    rw [ha] at h
    simp only [Prod.mk.injEq] at h
    obtain ⟨h1, h2⟩ := h
    subst h1
    obtain ⟨a1, a2⟩ := alloc_none ha
    subst h2
    subst a1
    simp [SameHeap, World.log, releases_append, releases, a2]

theorem calloc_some {env : Env} {w w1 : World} {p : Ptr} {n : Nat}
    (h : w.calloc env n = (some p, w1)) :
    p = w.next ∧ w1.live = w.next :: w.live ∧ w1.next = w.next + 1
      ∧ w1.trace = w.trace ++ [Event.calloc n (some w.next)]
      ∧ w1.fds = w.fds ∧ w1.errno = w.errno ∧ w1.queries = w.queries
      ∧ w1.allocs = w.allocs + 1 ∧ env.alloc_ok w.allocs = true := by
  unfold World.calloc at h
  cases ha : w.alloc env with
  | mk r w2 =>
    rw [ha] at h
    simp only [Prod.mk.injEq] at h
    obtain ⟨h1, h2⟩ := h
    subst h1
    obtain ⟨a1, a2, a3, a4, a5, a6, a7, a8, a9⟩ := alloc_some ha
    subst h2
    subst a1
    simp [World.log, a2, a3, a4, a5, a6, a7, a8, a9]

theorem calloc_none {env : Env} {w w1 : World} {n : Nat}
    (h : w.calloc env n = (none, w1)) :
    SameHeap w w1 ∧ w1.trace = w.trace ++ [Event.calloc n none]
      ∧ w1.fds = w.fds ∧ w1.errno = w.errno ∧ w1.queries = w.queries
      ∧ w1.allocs = w.allocs + 1 ∧ env.alloc_ok w.allocs = false := by
  unfold World.calloc at h
  cases ha : w.alloc env with
  | mk r w2 =>
    rw [ha] at h
    simp only [Prod.mk.injEq] at h
    obtain ⟨h1, h2⟩ := h
    subst h1
    obtain ⟨a1, a2⟩ := alloc_none ha
    subst h2
    subst a1
    simp [SameHeap, World.log, releases_append, releases, a2]

theorem Inv.slots_length {w : World} {a : NameArray} {items : List (Ptr × Name)}
    {cap : Nat} {extra : List Ptr} (h : Inv w a items cap extra) : a.slots.length = cap := by
  have := h.le
  rw [h.slots]
  simp
  omega

/-- A capacity `15 * 2 ^ k` whose double exceeds `INT_MAX` is at least
`15 * 2 ^ 27`. -/
theorem overflow_cap {k : Nat}
    (h : ¬ _INITIAL_NAME_CAPACITY * 2 ^ k * _NAME_CAPACITY_GROWTH_FACTOR ≤ INT_MAX) :
    15 * 2 ^ 27 ≤ _INITIAL_NAME_CAPACITY * 2 ^ k := by
  simp only [_INITIAL_NAME_CAPACITY, _NAME_CAPACITY_GROWTH_FACTOR, INT_MAX] at h ⊢
  by_contra hcon
  have hk : k < 27 := by
    by_contra hk
    have : 2 ^ 27 ≤ 2 ^ k := Nat.pow_le_pow_right (by decide) (by omega)
    omega
  have : 2 ^ k ≤ 2 ^ 26 := Nat.pow_le_pow_right (by decide) (by omega)
  have h26 : (2 : Nat) ^ 26 = 67108864 := by norm_num
  omega

theorem grow_inv (env : Env) (it : Fd) {loc : Locals} {w : World}
    {items : List (Ptr × Name)} {extra : List Ptr} (h : LInv w loc items extra) :
    (∀ loc1 w1, grow env it loc w = Step.go loc1 w1 →
        LInv w1 loc1 items extra ∧ items.length < loc1.result_capacity)
    ∧ (∀ w1, grow env it loc w = Step.fail w1 → w1.live.Perm extra ∧ Acc w1)
    ∧ (∀ w1, grow env it loc w = Step.undefined w1 → 15 * 2 ^ 27 ≤ items.length) := by
  obtain ⟨hinv, hcount⟩ := h
  unfold grow
  by_cases hc : loc.result_count = loc.result_capacity
  · simp only [hc, if_true]
    have hlen : items.length = loc.result_capacity := by rw [← hcount, hc]
    by_cases hfit : loc.result_capacity * _NAME_CAPACITY_GROWTH_FACTOR ≤ INT_MAX
    · simp only [hfit, if_true]
      cases hre : w.realloc env loc.results.ptr
          (loc.result_capacity * _NAME_CAPACITY_GROWTH_FACTOR) with
      | mk r w1 =>
        cases r with
        | none =>
          obtain ⟨hs, -⟩ := realloc_none hre
          have hinv2 : Inv (w1.closedir env it).2 loc.results items loc.result_capacity
              extra := (sameHeap_closedir env w1 it).inv (hs.inv hinv)
          have := free_content_names_inv hinv2
          refine ⟨fun _ _ he => (by cases he), fun w2 he => ?_, fun _ he => by cases he⟩
          cases he
          rw [← hlen]
          exact ⟨this.1, this.2.1⟩
        | some q =>
          obtain ⟨hq, hlive, hnext, htrace, -⟩ := realloc_some hre
          have hsl : loc.results.slots = items.map mkSlot := by
            have := hinv.slots
            simpa [hlen] using this
          have hz := zero_fill loc.result_capacity (items.map mkSlot)
            (List.replicate loc.result_capacity Slot.uninit) (by simp)
          simp only [List.length_map, hlen] at hz
          have hpos := hinv.pos
          refine ⟨fun loc2 w2 he => ?_, fun _ he => (by cases he), fun _ he => by cases he⟩
          cases he
          refine ⟨⟨⟨?_, ?_, ?_, hfit, ?_, ?_, ?_⟩, ?_⟩, ?_⟩
          · simp only [_NAME_CAPACITY_GROWTH_FACTOR, hsl, List.length_map, hlen]
            have e1 : loc.result_capacity * 2 - loc.result_capacity = loc.result_capacity := by
              omega
            have e2 : loc.result_capacity * 2 = loc.result_capacity + loc.result_capacity := by
              omega
            rw [e1]
            rw [e2] at *
            rw [hz]
          · simp only [_NAME_CAPACITY_GROWTH_FACTOR]; omega
          · simp only [_NAME_CAPACITY_GROWTH_FACTOR]; omega
          · obtain ⟨k, hk⟩ := hinv.shape
            exact ⟨k + 1, by
              simp only [_NAME_CAPACITY_GROWTH_FACTOR]
              rw [hk, pow_succ, Nat.mul_assoc]⟩
          · rw [hlive, hq]
            have := hinv.live.erase loc.results.ptr
            simp only [List.erase_cons_head] at this
            exact List.Perm.cons _ this
          · have hp : loc.results.ptr ∈ w.live := hinv.live.symm.subset (by simp)
            refine ⟨?_, ?_⟩
            · rw [hlive, hnext, htrace, releases_append, List.range_succ]
              simp only [releases]
              have h1 := hinv.acc.1
              refine (List.perm_middle).trans ?_
              refine List.Perm.trans ?_ (List.perm_append_singleton _ _).symm
              refine List.Perm.cons _ ?_
              refine List.Perm.trans ?_ h1
              rw [List.append_assoc]
              exact List.Perm.append_left _ (List.perm_cons_erase hp).symm
            · rw [htrace]
              simpa using hinv.acc.2
          · exact hlen.symm
          · simp only [_NAME_CAPACITY_GROWTH_FACTOR]; omega
    · simp only [hfit, if_false]
      refine ⟨fun _ _ he => (by cases he), fun _ he => (by cases he), fun w2 _ => ?_⟩
      obtain ⟨k, hk⟩ := hinv.shape
      rw [hk] at hfit
      rw [hlen, hk]
      exact overflow_cap hfit
  · simp only [hc, if_false]
    have := hinv.le
    refine ⟨fun loc2 w2 he => ?_, fun _ he => (by cases he), fun _ he => by cases he⟩
    cases he
    exact ⟨⟨hinv, hcount⟩, by omega⟩

theorem append_inv (env : Env) (it : Fd) (d_name : Name) {loc : Locals} {w : World}
    {items : List (Ptr × Name)} {extra : List Ptr} (h : LInv w loc items extra)
    (hlt : items.length < loc.result_capacity) :
    (∀ loc1 w1, append env it d_name loc w = Step.go loc1 w1 →
        LInv w1 loc1 (items ++ [(w.next, d_name)]) extra
          ∧ loc1.result_capacity = loc.result_capacity)
    ∧ (∀ w1, append env it d_name loc w = Step.fail w1 → w1.live.Perm extra ∧ Acc w1)
    ∧ (∀ w1, append env it d_name loc w = Step.undefined w1 → False) := by
  obtain ⟨hinv, hcount⟩ := h
  unfold append
  cases hm : w.malloc env with
  | mk r w1 =>
    cases r with
    | none =>
      obtain ⟨hs, -⟩ := malloc_none hm
      have hinv2 : Inv (w1.closedir env it).2 loc.results items loc.result_capacity extra :=
        (sameHeap_closedir env w1 it).inv (hs.inv hinv)
      have := free_content_names_inv hinv2
      refine ⟨fun _ _ he => (by cases he), fun w2 he => ?_, fun _ he => by cases he⟩
      cases he
      simp only [hcount]
      exact ⟨this.1, this.2.1⟩
    | some p =>
      obtain ⟨hp, hlive, hnext, htrace, -⟩ := malloc_some hm
      subst hp
      have hin : loc.result_count < loc.results.slots.length := by
        rw [hinv.slots_length, hcount]; exact hlt
      have hfit : loc.result_count + 1 ≤ INT_MAX := by
        have := hinv.fits
        rw [hcount]; omega
      simp only [hin, hfit, if_true]
      refine ⟨fun loc2 w2 he => ?_, fun _ he => (by cases he), fun _ he => by cases he⟩
      cases he
      refine ⟨⟨⟨?_, ?_, hinv.pos, hinv.fits, hinv.shape, ?_, ?_⟩, ?_⟩, rfl⟩
      · obtain ⟨k, hk⟩ : ∃ k, loc.result_capacity - items.length = k + 1 :=
          ⟨loc.result_capacity - items.length - 1, by omega⟩
        have hk2 : loc.result_capacity - (items ++ [(w.next, d_name)]).length = k := by
          simp; omega
        simp only [hinv.slots, hcount, hk, hk2, List.replicate_succ]
        simp [List.set_append, mkSlot]
      · simp; omega
      · rw [hlive]
        simp only [List.map_append, List.map_cons, List.map_nil, List.append_assoc,
          List.singleton_append]
        refine (List.Perm.cons _ hinv.live).trans ?_
        refine (List.Perm.swap _ _ _).trans (List.Perm.cons _ ?_)
        exact List.perm_middle.symm
      · exact acc_alloc_log _ hinv.acc hlive hnext htrace (by simp [releases]) (by simp)
      · simp [hcount]

theorem loop_body_inv (env : Env) (it : Fd) (e : Name) {loc : Locals} {w : World}
    {items : List (Ptr × Name)} {extra : List Ptr} (h : LInv w loc items extra) :
    (∀ loc1 w1, loop_body env it e loc w = Step.go loc1 w1 →
        ∃ added, LInv w1 loc1 (items ++ added) extra ∧ added.map Prod.snd = kept [e])
    ∧ (∀ w1, loop_body env it e loc w = Step.fail w1 → w1.live.Perm extra ∧ Acc w1)
    ∧ (∀ w1, loop_body env it e loc w = Step.undefined w1 →
        15 * 2 ^ 27 ≤ items.length ∧ kept [e] = [e]) := by
  unfold loop_body
  by_cases h1 : e = "."
  · subst h1
    refine ⟨fun loc2 w2 he => ?_, fun _ he => (by simp at he), fun _ he => by simp at he⟩
    simp only [if_true] at he
    cases he
    exact ⟨[], by simpa using h, by simp [kept]⟩
  by_cases h2 : e = ".."
  · subst h2
    refine ⟨fun loc2 w2 he => ?_, fun _ he => (by simp at he), fun _ he => by simp at he⟩
    simp only [if_true] at he
    cases he
    exact ⟨[], by simpa using h, by simp [kept]⟩
  simp only [h1, h2, if_false]
  have hkept : kept [e] = [e] := by simp [kept, h1, h2]
  have hg := grow_inv env it h
  cases hgr : grow env it loc w with
  | fail w1 =>
    refine ⟨fun _ _ he => (by cases he), fun w2 he => ?_, fun _ he => by cases he⟩
    cases he
    exact hg.2.1 _ hgr
  | undefined w1 =>
    refine ⟨fun _ _ he => (by cases he), fun _ he => (by cases he), fun w2 _ => ?_⟩
    exact ⟨hg.2.2 _ hgr, hkept⟩
  | go loc1 w1 =>
    obtain ⟨hl1, hlt⟩ := hg.1 _ _ hgr
    have ha := append_inv env it e hl1 hlt
    refine ⟨fun loc2 w2 he => ?_, fun w2 he => ha.2.1 _ he,
      fun w2 he => (ha.2.2 _ he).elim⟩
    exact ⟨[(w1.next, e)], (ha.1 _ _ he).1, by rw [hkept]; rfl⟩

theorem kept_cons_length (e : Name) (rest : List Name) :
    (kept (e :: rest)).length = (kept [e]).length + (kept rest).length := by
  have hke : kept (e :: rest) = kept [e] ++ kept rest := by
    simp [kept, List.filter_cons]
    split <;> simp
  rw [hke, List.length_append]

/-- The loop keeps the array well formed; it fails only after releasing what
it holds; and it runs into undefined behaviour only with more than
`15 * 2 ^ 27` names to store. -/
theorem names_loop_inv (env : Env) (it : Fd) (entries : List Name) :
    ∀ (loc : Locals) (w : World) (items : List (Ptr × Name)) (extra : List Ptr),
    LInv w loc items extra →
    (∀ loc1 w1, names_loop env it entries loc w = Step.go loc1 w1 →
        ∃ added, LInv w1 loc1 (items ++ added) extra ∧ added.map Prod.snd = kept entries)
    ∧ (∀ w1, names_loop env it entries loc w = Step.fail w1 → w1.live.Perm extra ∧ Acc w1)
    ∧ (∀ w1, names_loop env it entries loc w = Step.undefined w1 →
        15 * 2 ^ 27 < items.length + (kept entries).length) := by
  induction entries with
  | nil =>
    intro loc w items extra h
    refine ⟨fun loc2 w2 he => ?_, fun _ he => (by cases he), fun _ he => by cases he⟩
    cases he
    exact ⟨[], by simpa using h, by simp [kept]⟩
  | cons e rest ih =>
    intro loc w items extra h
    have h0 : LInv (w.readdir_entry it) loc items extra :=
      ⟨(sameHeap_readdir_entry w it).inv h.1, h.2⟩
    have hb := loop_body_inv env it e h0
    simp only [names_loop]
    cases hbr : loop_body env it e loc (w.readdir_entry it) with
    | fail w1 =>
      refine ⟨fun _ _ he => (by cases he), fun w2 he => ?_, fun _ he => by cases he⟩
      cases he
      exact hb.2.1 _ hbr
    | undefined w1 =>
      refine ⟨fun _ _ he => (by cases he), fun _ he => (by cases he), fun w2 _ => ?_⟩
      obtain ⟨hbig, hk⟩ := hb.2.2 _ hbr
      rw [kept_cons_length, hk]
      simp only [List.length_singleton]
      omega
    | go loc1 w1 =>
      obtain ⟨added, hl, hk⟩ := hb.1 _ _ hbr
      have := ih loc1 w1 (items ++ added) extra hl
      have hlen : added.length = (kept [e]).length := by
        rw [← hk, List.length_map]
      refine ⟨fun loc2 w2 he => ?_, fun w2 he => this.2.1 _ he, fun w2 he => ?_⟩
      · obtain ⟨added2, hl2, hk2⟩ := this.1 _ _ he
        refine ⟨added ++ added2, by simpa using hl2, ?_⟩
        have hke : kept (e :: rest) = kept [e] ++ kept rest := by
          simp [kept, List.filter_cons]
          split <;> simp
        rw [List.map_append, hk, hk2, hke]
      · have hbig := this.2.2 _ he
        rw [kept_cons_length, ← hlen]
        simp only [List.length_append] at hbig
        omega

theorem FreesOnly.same (w : World) : FreesOnly w w :=
  ⟨[], by simp, by simp, rfl, rfl, rfl, rfl, rfl⟩

theorem FreesOnly.seq {w w2 w3 : World} (h1 : FreesOnly w w2) (h2 : FreesOnly w2 w3) :
    FreesOnly w w3 := by
  obtain ⟨e1, a1, a2, a3, a4, a5, a6, a7⟩ := h1
  obtain ⟨e2, b1, b2, b3, b4, b5, b6, b7⟩ := h2
  refine ⟨e1 ++ e2, by rw [b1, a1, List.append_assoc], ?_, by rw [b3, a3], by rw [b4, a4],
    by rw [b5, a5], by rw [b6, a6], by rw [b7, a7]⟩
  intro e he
  rcases List.mem_append.mp he with h | h
  · exact a2 e h
  · exact b2 e h

theorem freesOnly_free (w : World) (p : Ptr) : FreesOnly w (w.free p) :=
  ⟨[Event.free p], rfl, by simp [isFree], rfl, rfl, rfl, rfl, rfl⟩

theorem freesOnly_free_slot (w : World) (s : Slot) : FreesOnly w (w.free_slot s) := by
  cases s with
  | uninit => exact ⟨[Event.free_wild], rfl, by simp [isFree], rfl, rfl, rfl, rfl, rfl⟩
  | null => exact FreesOnly.same w
  | name p nm => exact freesOnly_free w p

theorem freesOnly_free_content_names (names : Option NameArray) (count : Nat) (w : World) :
    FreesOnly w (free_content_names names count w) := by
  have h1 : FreesOnly w (forLoop 0 count (fun i acc => acc.free_slot (readSlot names i)) w) :=
    forLoop_inv (FreesOnly w) 0 count _ w (FreesOnly.same w)
      (fun i t ht => ht.seq (freesOnly_free_slot t _))
  unfold free_content_names
  cases names with
  | none => exact h1
  | some a => exact h1.seq (freesOnly_free _ _)

theorem freesOnly_free_contents (names : Option NameArray) (metadata : Option MetaArray)
    (count : Nat) (w : World) : FreesOnly w (free_contents names metadata count w) := by
  unfold free_contents
  cases metadata with
  | none => exact freesOnly_free_content_names names count w
  | some m => exact (freesOnly_free_content_names names count w).seq (freesOnly_free _ _)

theorem closes_of_frees (fd : Fd) (ext : List Event) (h : ∀ e ∈ ext, isFree e = true) :
    closes fd ext = 0 := by
  unfold closes
  have h1 : ext.count (Event.close fd) = 0 :=
    List.count_eq_zero_of_not_mem (fun hm => by simpa [isFree] using h _ hm)
  have h2 : ext.count (Event.closedir (some fd)) = 0 :=
    List.count_eq_zero_of_not_mem (fun hm => by simpa [isFree] using h _ hm)
  omega

theorem FreesOnly.closes_eq {w w2 : World} (h : FreesOnly w w2) (fd : Fd) :
    closes fd w2.trace = closes fd w.trace := by
  obtain ⟨ext, a1, a2, -⟩ := h
  rw [a1, closes_append, closes_of_frees fd ext a2]
  rfl

theorem Quiet.still (w : World) : Quiet w w := ⟨rfl, rfl, rfl, fun _ => rfl⟩

theorem Quiet.then_quiet {w w2 w3 : World} (h1 : Quiet w w2) (h2 : Quiet w2 w3) : Quiet w w3 :=
  ⟨h2.1.trans h1.1, h2.2.1.trans h1.2.1, h2.2.2.1.trans h1.2.2.1,
    fun fd => (h2.2.2.2 fd).trans (h1.2.2.2 fd)⟩

theorem Quiet.then_closed {it : Fd} {w w2 w3 : World} (h1 : Quiet w w2) (h2 : Closed it w2 w3) :
    Closed it w w3 :=
  ⟨by rw [h2.1, h1.1], h2.2.1.trans h1.2.2.1, fun fd => by rw [h2.2.2 fd, h1.2.2.2 fd]⟩

theorem FreesOnly.to_quiet {w w2 : World} (h : FreesOnly w w2) : Quiet w w2 := by
  have hc := fun fd => h.closes_eq fd
  obtain ⟨ext, -, -, a3, a4, a5, -⟩ := h
  exact ⟨a3, a4, a5, hc⟩

theorem quiet_of_trace {w w2 : World} {e : Event} (hfds : w2.fds = w.fds)
    (herrno : w2.errno = w.errno) (hq : w2.queries = w.queries)
    (htrace : w2.trace = w.trace ++ [e]) (he : ∀ fd, closes fd [e] = 0) : Quiet w w2 :=
  ⟨hfds, herrno, hq, fun fd => by rw [htrace, closes_append, he fd]; rfl⟩

theorem closed_closedir (env : Env) (it : Fd) (w : World) : Closed it w (w.closedir env it).2 := by
  refine ⟨rfl, rfl, fun fd => ?_⟩
  simp only [World.closedir, closes_append]
  by_cases h : fd = it
  · subst h; simp [closes]
  · have : it ≠ fd := fun h2 => h h2.symm
    simp [closes, h, this]

theorem Closed.frees {it : Fd} {w w2 w3 : World} (h1 : Closed it w w2) (h2 : FreesOnly w2 w3) :
    Closed it w w3 := by
  have hq := h2.to_quiet
  exact ⟨by rw [hq.1, h1.1], hq.2.2.1.trans h1.2.1, fun fd => by rw [hq.2.2.2 fd, h1.2.2 fd]⟩

theorem Quiet.to_calm {w w2 : World} (h : Quiet w w2) : Calm w w2 := ⟨h.1, h.2.2.1, h.2.2.2⟩

theorem Calm.then_calm {w w2 w3 : World} (h1 : Calm w w2) (h2 : Calm w2 w3) : Calm w w3 :=
  ⟨h2.1.trans h1.1, h2.2.1.trans h1.2.1, fun fd => (h2.2.2 fd).trans (h1.2.2 fd)⟩

theorem Calm.before_closed {it : Fd} {w w2 w3 : World} (h1 : Calm w w2) (h2 : Closed it w2 w3) :
    Closed it w w3 :=
  ⟨by rw [h2.1, h1.1], h2.2.1.trans h1.2.1, fun fd => by rw [h2.2.2 fd, h1.2.2 fd]⟩

theorem Closed.and_calm {it : Fd} {w w2 w3 : World} (h1 : Closed it w w2) (h2 : Calm w2 w3) :
    Closed it w w3 :=
  ⟨by rw [h2.1, h1.1], h2.2.1.trans h1.2.1, fun fd => by rw [h2.2.2 fd, h1.2.2 fd]⟩

theorem calm_set_errno (w : World) (e : Nat) : Calm w (w.set_errno e) :=
  ⟨rfl, rfl, fun _ => rfl⟩

theorem calm_log {w : World} {e : Event} (he : ∀ fd, closes fd [e] = 0) : Calm w (w.log e) :=
  ⟨rfl, rfl, fun fd => by simp only [World.log, closes_append, he fd]; rfl⟩

theorem calm_readdir_end (env : Env) (w : World) (it : Fd) : Calm w (w.readdir_end env it) :=
  ⟨rfl, rfl, fun fd => by simp [World.readdir_end, closes_append, closes]⟩

theorem closed_close (w : World) (d : Fd) : Closed d w (w.close d) := by
  refine ⟨rfl, rfl, fun fd => ?_⟩
  simp only [World.close, closes_append]
  by_cases h : fd = d
  · subst h; simp [closes]
  · have : d ≠ fd := fun h2 => h h2.symm
    simp [closes, h, this]

theorem grow_frame (env : Env) (it : Fd) (loc : Locals) (w : World) :
    (∀ loc1 w1, grow env it loc w = Step.go loc1 w1 → Quiet w w1)
    ∧ (∀ w1, grow env it loc w = Step.fail w1 → Closed it w w1)
    ∧ (∀ w1, grow env it loc w = Step.undefined w1 → Quiet w w1) := by
  unfold grow
  by_cases hc : loc.result_count = loc.result_capacity
  · simp only [hc, if_true]
    by_cases hfit : loc.result_capacity * _NAME_CAPACITY_GROWTH_FACTOR ≤ INT_MAX
    · simp only [hfit, if_true]
      cases hre : w.realloc env loc.results.ptr
          (loc.result_capacity * _NAME_CAPACITY_GROWTH_FACTOR) with
      | mk r w1 =>
        cases r with
        | none =>
          obtain ⟨-, b1, b2, b3, b4, -⟩ := realloc_none hre
          refine ⟨fun _ _ he => (by cases he), fun w2 he => ?_, fun _ he => by cases he⟩
          cases he
          have hq : Quiet w w1 := quiet_of_trace b2 b3 b4 b1 (by simp [closes])
          exact hq.then_closed
            ((closed_closedir env it w1).frees (freesOnly_free_content_names _ _ _))
        | some q =>
          obtain ⟨-, -, -, b1, b2, b3, b4, -⟩ := realloc_some hre
          refine ⟨fun loc2 w2 he => ?_, fun _ he => (by cases he), fun _ he => by cases he⟩
          cases he
          exact quiet_of_trace b2 b3 b4 b1 (by simp [closes])
    · simp only [hfit, if_false]
      refine ⟨fun _ _ he => (by cases he), fun _ he => (by cases he), fun w2 he => ?_⟩
      cases he
      exact Quiet.still w
  · simp only [hc, if_false]
    refine ⟨fun loc2 w2 he => ?_, fun _ he => (by cases he), fun _ he => by cases he⟩
    cases he
    exact Quiet.still w

theorem append_frame (env : Env) (it : Fd) (d_name : Name) (loc : Locals) (w : World) :
    (∀ loc1 w1, append env it d_name loc w = Step.go loc1 w1 → Quiet w w1)
    ∧ (∀ w1, append env it d_name loc w = Step.fail w1 → Closed it w w1)
    ∧ (∀ w1, append env it d_name loc w = Step.undefined w1 → Quiet w w1) := by
  unfold append
  cases hm : w.malloc env with
  | mk r w1 =>
    cases r with
    | none =>
      obtain ⟨-, b1, b2, b3, b4, -⟩ := malloc_none hm
      refine ⟨fun _ _ he => (by cases he), fun w2 he => ?_, fun _ he => by cases he⟩
      cases he
      have hq : Quiet w w1 := quiet_of_trace b2 b3 b4 b1 (by simp [closes])
      exact hq.then_closed
        ((closed_closedir env it w1).frees (freesOnly_free_content_names _ _ _))
    | some p =>
      obtain ⟨-, -, -, b1, b2, b3, b4, -⟩ := malloc_some hm
      have hq : Quiet w w1 := quiet_of_trace b2 b3 b4 b1 (by simp [closes])
      simp only
      refine ⟨fun loc2 w2 he => ?_, fun w2 he => ?_, fun w2 he => ?_⟩
      · split at he
        · split at he
          · cases he; exact hq
          · cases he
        · cases he
      · split at he
        · split at he <;> cases he
        · cases he
      · split at he
        · split at he
          · cases he
          · cases he; exact hq
        · cases he; exact hq

theorem loop_body_frame (env : Env) (it : Fd) (e : Name) (loc : Locals) (w : World) :
    (∀ loc1 w1, loop_body env it e loc w = Step.go loc1 w1 → Quiet w w1)
    ∧ (∀ w1, loop_body env it e loc w = Step.fail w1 → Closed it w w1)
    ∧ (∀ w1, loop_body env it e loc w = Step.undefined w1 → Quiet w w1) := by
  unfold loop_body
  by_cases h1 : e = "."
  · simp only [h1, if_true]
    refine ⟨fun loc2 w2 he => ?_, fun _ he => (by cases he), fun _ he => by cases he⟩
    cases he
    exact Quiet.still w
  by_cases h2 : e = ".."
  · simp only [h2, if_true]
    refine ⟨fun loc2 w2 he => ?_, fun _ he => (by simp at he), fun _ he => by simp at he⟩
    simp at he
    rw [← he.2]
    exact Quiet.still w
  simp only [h1, h2, if_false]
  have hg := grow_frame env it loc w
  cases hgr : grow env it loc w with
  | fail w1 =>
    refine ⟨fun _ _ he => (by cases he), fun w2 he => ?_, fun _ he => by cases he⟩
    cases he
    exact hg.2.1 _ hgr
  | undefined w1 =>
    refine ⟨fun _ _ he => (by cases he), fun _ he => (by cases he), fun w2 he => ?_⟩
    cases he
    exact hg.2.2 _ hgr
  | go loc1 w1 =>
    have ha := append_frame env it e loc1 w1
    exact ⟨fun loc2 w2 he => (hg.1 _ _ hgr).then_quiet (ha.1 _ _ he),
      fun w2 he => (hg.1 _ _ hgr).then_closed (ha.2.1 _ he),
      fun w2 he => (hg.1 _ _ hgr).then_quiet (ha.2.2 _ he)⟩

theorem quiet_readdir_entry (w : World) (it : Fd) : Quiet w (w.readdir_entry it) :=
  quiet_of_trace rfl rfl rfl rfl (by simp [closes])

theorem names_loop_frame (env : Env) (it : Fd) (entries : List Name) :
    ∀ (loc : Locals) (w : World),
    (∀ loc1 w1, names_loop env it entries loc w = Step.go loc1 w1 → Quiet w w1)
    ∧ (∀ w1, names_loop env it entries loc w = Step.fail w1 → Closed it w w1)
    ∧ (∀ w1, names_loop env it entries loc w = Step.undefined w1 → Quiet w w1) := by
  induction entries with
  | nil =>
    intro loc w
    refine ⟨fun loc2 w2 he => ?_, fun _ he => (by cases he), fun _ he => by cases he⟩
    cases he
    exact Quiet.still w
  | cons e rest ih =>
    intro loc w
    have hb := loop_body_frame env it e loc
      (w.readdir_entry it)
    have h0 := quiet_readdir_entry w it
    simp only [names_loop]
    cases hbr : loop_body env it e loc (w.readdir_entry it) with
    | fail w1 =>
      refine ⟨fun _ _ he => (by cases he), fun w2 he => ?_, fun _ he => by cases he⟩
      cases he
      exact h0.then_closed (hb.2.1 _ hbr)
    | undefined w1 =>
      refine ⟨fun _ _ he => (by cases he), fun _ he => (by cases he), fun w2 he => ?_⟩
      cases he
      exact h0.then_quiet (hb.2.2 _ hbr)
    | go loc1 w1 =>
      have hq := h0.then_quiet (hb.1 _ _ hbr)
      exact ⟨fun loc2 w2 he => hq.then_quiet ((ih loc1 w1).1 _ _ he),
        fun w2 he => hq.then_closed ((ih loc1 w1).2.1 _ he),
        fun w2 he => hq.then_quiet ((ih loc1 w1).2.2 _ he)⟩

/-- The loop can only fail through an allocation that fails. -/
theorem names_loop_fail (env : Env) (it : Fd) (entries : List Name) :
    ∀ (loc : Locals) (w w1 : World),
    names_loop env it entries loc w = Step.fail w1 → ∃ n, env.alloc_ok n = false := by
  induction entries with
  | nil => intro loc w w1 h; cases h
  | cons e rest ih =>
    intro loc w w1 h
    simp only [names_loop] at h
    cases hb : loop_body env it e loc (w.readdir_entry it) with
    | go loc2 w2 =>
      rw [hb] at h
      exact ih loc2 w2 w1 h
    | undefined w2 => rw [hb] at h; cases h
    | fail w2 =>
      unfold loop_body at hb
      by_cases h1 : e = "."
      · simp [h1] at hb
      by_cases h2 : e = ".."
      · simp [h2] at hb
      simp only [h1, h2, if_false] at hb
      cases hgr : grow env it loc (w.readdir_entry it) with
      | undefined w3 => rw [hgr] at hb; cases hb
      | fail w3 =>
        unfold grow at hgr
        by_cases hc : loc.result_count = loc.result_capacity
        · simp only [hc, if_true] at hgr
          by_cases hfit : loc.result_capacity * _NAME_CAPACITY_GROWTH_FACTOR ≤ INT_MAX
          · simp only [hfit, if_true] at hgr
            cases hre : (w.readdir_entry it).realloc env loc.results.ptr
                (loc.result_capacity * _NAME_CAPACITY_GROWTH_FACTOR) with
            | mk r w4 =>
              rw [hre] at hgr
              cases r with
              | none => exact ⟨_, (realloc_none hre).2.2.2.2.2.2⟩
              | some q => cases hgr
          · simp [hfit] at hgr
        · simp [hc] at hgr
      | go loc3 w3 =>
        rw [hgr] at hb
        simp only at hb
        unfold append at hb
        cases hm : w3.malloc env with
        | mk r w4 =>
          rw [hm] at hb
          cases r with
          | none => exact ⟨_, (malloc_none hm).2.2.2.2.2.2⟩
          | some p =>
            simp only at hb
            split at hb
            · split at hb <;> cases hb
            · cases hb

/-- With every allocation succeeding and at most `15 * 2 ^ 27` names to
store, the loop gets through the entries. -/
theorem names_loop_go {env : Env} (halloc : ∀ n, env.alloc_ok n = true) (it : Fd)
    (entries : List Name) {loc : Locals} {w : World} {items : List (Ptr × Name)}
    {extra : List Ptr} (hinv : LInv w loc items extra)
    (hN : items.length + (kept entries).length ≤ 15 * 2 ^ 27) :
    ∃ loc1 w1, names_loop env it entries loc w = Step.go loc1 w1 := by
  cases h : names_loop env it entries loc w with
  | go loc1 w1 => exact ⟨loc1, w1, rfl⟩
  | fail w1 =>
    obtain ⟨n, hn⟩ := names_loop_fail env it entries loc w w1 h
    rw [halloc n] at hn
    cases hn
  | undefined w1 =>
    have := (names_loop_inv env it entries loc w items extra hinv).2.2 _ h
    omega

theorem inv_initial {env : Env} {w w1 : World} {p : Ptr} (hacc : Acc w)
    (hc : w.calloc env _INITIAL_NAME_CAPACITY = (some p, w1)) :
    LInv w1 (initial_locals p) [] w.live := by
  obtain ⟨hp, hlive, hnext, htrace, -⟩ := calloc_some hc
  refine ⟨⟨?_, ?_, ?_, ?_, ?_, ?_, ?_⟩, rfl⟩
  · simp [initial_locals]
  · simp
  · simp [initial_locals, _INITIAL_NAME_CAPACITY]
  · simp [initial_locals, _INITIAL_NAME_CAPACITY, INT_MAX]
  · exact ⟨0, by simp [initial_locals]⟩
  · rw [hlive, hp]; simp [initial_locals]
  · exact acc_alloc_log _ hacc hlive hnext htrace (by simp [releases]) (by simp)

/-- With the initial allocation, the duplication and the stream open
succeeding, the call runs the loop from a well-formed empty array and ends as
the loop and lines 101-133 decide. -/
theorem read_content_names_path {env : Env} (directory : Fd) (w : World) {d : Fd}
    (hacc : Acc w) (hcalloc : env.alloc_ok w.allocs = true) (hdup : env.dup = some d)
    (hopen : env.fdopendir_ok = true) :
    ∃ p w4, LInv w4 (initial_locals p) [] w.live ∧ w4.errno = 0
      ∧ reallocs w4.trace = reallocs w.trace
      ∧ read_content_names env directory w
        = (match names_loop env d env.entries (initial_locals p) w4 with
          | Step.fail w5 => ⟨Outcome.ret (-1), none, w5⟩
          | Step.undefined w5 => ⟨Outcome.undefined, none, w5⟩
          | Step.go loc1 w5 => names_finish env d loc1 w5) := by
  unfold read_content_names
  cases hc : w.calloc env _INITIAL_NAME_CAPACITY with
  | mk rp w1 =>
    cases rp with
    | none =>
      have := (calloc_none hc).2.2.2.2.2.2
      rw [hcalloc] at this
      cases this
    | some p =>
      obtain ⟨-, -, -, b1, -⟩ := calloc_some hc
      have hinv1 := inv_initial hacc hc
      simp only
      cases hd : w1.fcntl_dupfd env directory with
      | mk rd w2 =>
        have hs2 : SameHeap w1 w2 := by
          have := sameHeap_fcntl_dupfd env w1 directory
          rw [hd] at this
          exact this
        have hrd : rd = some d ∧ reallocs w2.trace = reallocs w1.trace := by
          simp only [World.fcntl_dupfd, hdup, Prod.mk.injEq] at hd
          refine ⟨hd.1.symm, ?_⟩
          rw [← hd.2]
          simp [reallocs_append, reallocs]
        obtain ⟨hrd1, hrd2⟩ := hrd
        subst hrd1
        simp only
        cases ho : w2.fdopendir env d with
        | mk ro w3 =>
          have hs3 : SameHeap w2 w3 := by
            have := sameHeap_fdopendir env w2 d
            rw [ho] at this
            exact this
          have hro : ro = some d ∧ reallocs w3.trace = reallocs w2.trace := by
            simp only [World.fdopendir, hopen, if_true, Prod.mk.injEq] at ho
            refine ⟨ho.1.symm, ?_⟩
            rw [← ho.2]
            simp [World.log, reallocs_append, reallocs]
          obtain ⟨hro1, hro2⟩ := hro
          subst hro1
          simp only
          refine ⟨p, w3.set_errno 0,
            ⟨(sameHeap_set_errno w3 0).inv (hs3.inv (hs2.inv hinv1.1)), hinv1.2⟩, rfl, ?_, rfl⟩
          show reallocs w3.trace = reallocs w.trace
          rw [hro2, hrd2, b1, reallocs_append]
          simp [reallocs]

/-- With the initial allocation, the duplication, the stream open and every
allocation in the loop succeeding, and at most `15 * 2 ^ 27` names to store,
the call runs the loop to the end of the stream and then lines 101-133. -/
theorem read_content_names_loop {env : Env} (directory : Fd) (w : World) {d : Fd}
    (hacc : Acc w) (halloc : ∀ n, env.alloc_ok n = true) (hdup : env.dup = some d)
    (hopen : env.fdopendir_ok = true) (hN : (kept env.entries).length ≤ 15 * 2 ^ 27) :
    ∃ p w4 loc1 w5, names_loop env d env.entries (initial_locals p) w4 = Step.go loc1 w5
      ∧ w4.errno = 0 ∧ reallocs w4.trace = reallocs w.trace
      ∧ read_content_names env directory w = names_finish env d loc1 w5 := by
  obtain ⟨p, w4, hinv, herr, hre, heq⟩ :=
    read_content_names_path directory w hacc (halloc _) hdup hopen
  obtain ⟨loc1, w5, hn⟩ := names_loop_go halloc d env.entries hinv (by simpa using hN)
  rw [hn] at heq
  exact ⟨p, w4, loc1, w5, hn, herr, hre, heq⟩

/-- A clean end of the stream followed by a successful close ends the call
with 0. -/
theorem names_finish_clean (env : Env) (it : Fd) (loc : Locals) (w : World)
    (hw : w.errno = 0) (he : env.readdir_errno = 0) (hclose : env.closedir_ok = true) :
    (names_finish env it loc w).ret = Outcome.ret 0 := by
  have h6 : (w.readdir_end env it).errno = 0 := by
    simp [World.readdir_end, he, hw]
  unfold names_finish
  simp only [h6, ne_eq, not_true_eq_false, if_false, World.closedir, hclose]
  split <;> rfl

/-- Lines 101-133 return a code. -/
theorem names_finish_defined (env : Env) (it : Fd) (loc : Locals) (w : World) :
    (names_finish env it loc w).ret ≠ Outcome.undefined := by
  unfold names_finish
  simp only
  split
  · simp
  · split
    · simp
    · split <;> simp

/-- With every step succeeding and at most `15 * 2 ^ 27` names to store, the
call returns 0. -/
theorem read_content_names_ok {env : Env} (directory : Fd) (w : World) {d : Fd}
    (hacc : Acc w) (halloc : ∀ n, env.alloc_ok n = true) (hdup : env.dup = some d)
    (hopen : env.fdopendir_ok = true) (hread : env.readdir_errno = 0)
    (hclose : env.closedir_ok = true) (hN : (kept env.entries).length ≤ 15 * 2 ^ 27) :
    (read_content_names env directory w).ret = Outcome.ret 0 := by
  obtain ⟨p, w4, loc1, w5, hn, herr, -, heq⟩ :=
    read_content_names_loop directory w hacc halloc hdup hopen hN
  rw [heq]
  have hq := (names_loop_frame env d env.entries _ _).1 _ _ hn
  exact names_finish_clean env d loc1 w5 (by rw [hq.2.1, herr]) hread hclose

/-- Every run of `read_content_names` from a well-accounted heap ends in one
of three ways: no output is written, and the run either returns -1 with
nothing new left allocated or is undefined; or the code is 0, the output is
(NULL, 0), no entry was kept and nothing new stays allocated; or the code is
0 and the output is a well-formed array holding the kept entries, which
together with its name blocks is all that is newly live. -/
theorem read_content_names_heap (env : Env) (directory : Fd) (w : World) (hacc : Acc w) :
    ∀ r, r = read_content_names env directory w →
    (r.out = none ∧ ((r.ret = Outcome.ret (-1) ∧ r.world.live.Perm w.live ∧ Acc r.world)
        ∨ r.ret = Outcome.undefined))
    ∨ (r.ret = Outcome.ret 0 ∧ r.out = some (none, 0) ∧ kept env.entries = []
        ∧ r.world.live.Perm w.live ∧ Acc r.world)
    ∨ (r.ret = Outcome.ret 0 ∧ ∃ a items cap, items ≠ [] ∧ r.out = some (some a, items.length)
        ∧ items.map Prod.snd = kept env.entries ∧ Inv r.world a items cap w.live) := by
  intro r hr
  unfold read_content_names at hr
  cases hc : w.calloc env _INITIAL_NAME_CAPACITY with
  | mk rp w1 =>
    rw [hc] at hr
    cases rp with
    | none =>
      simp only at hr
      subst hr
      obtain ⟨hs, -⟩ := calloc_none hc
      exact Or.inl ⟨rfl, Or.inl ⟨rfl, by rw [hs.1], hs.acc hacc⟩⟩
    | some p =>
      simp only at hr
      have hinv1 := inv_initial hacc hc
      cases hd : w1.fcntl_dupfd env directory with
      | mk rd w2 =>
        rw [hd] at hr
        have hs2 : SameHeap w1 w2 := by
          have := sameHeap_fcntl_dupfd env w1 directory
          rw [hd] at this
          exact this
        have hinv2 : LInv w2 (initial_locals p) [] w.live := ⟨hs2.inv hinv1.1, hinv1.2⟩
        cases rd with
        | none =>
          simp only at hr
          subst hr
          have := free_content_names_inv hinv2.1
          exact Or.inl ⟨rfl, Or.inl ⟨rfl, this.1, this.2.1⟩⟩
        | some d =>
          simp only at hr
          cases ho : w2.fdopendir env d with
          | mk ro w3 =>
            rw [ho] at hr
            have hs3 : SameHeap w2 w3 := by
              have := sameHeap_fdopendir env w2 d
              rw [ho] at this
              exact this
            have hinv3 : LInv w3 (initial_locals p) [] w.live := ⟨hs3.inv hinv2.1, hinv2.2⟩
            cases ro with
            | none =>
              simp only at hr
              subst hr
              exact Or.inl ⟨rfl, Or.inr rfl⟩
            | some it =>
              simp only at hr
              have hinv4 : LInv (w3.set_errno 0) (initial_locals p) [] w.live :=
                ⟨(sameHeap_set_errno w3 0).inv hinv3.1, hinv3.2⟩
              have hloop := names_loop_inv env it env.entries _ _ _ _ hinv4
              cases hn : names_loop env it env.entries (initial_locals p) (w3.set_errno 0) with
              | fail w5 =>
                rw [hn] at hr
                simp only at hr
                subst hr
                have := hloop.2.1 _ hn
                exact Or.inl ⟨rfl, Or.inl ⟨rfl, this.1, this.2⟩⟩
              | undefined w5 =>
                rw [hn] at hr
                simp only at hr
                subst hr
                exact Or.inl ⟨rfl, Or.inr rfl⟩
              | go loc1 w5 =>
                rw [hn] at hr
                simp only [names_finish] at hr
                obtain ⟨items, hl, hk⟩ := hloop.1 _ _ hn
                simp only [List.nil_append] at hl
                have hinv6 : Inv (w5.readdir_end env it) loc1.results items
                    loc1.result_capacity w.live := (sameHeap_readdir_end env w5 it).inv hl.1
                by_cases herr : (w5.readdir_end env it).errno ≠ 0
                · rw [if_pos herr] at hr
                  subst hr
                  have hinv8 : Inv (((w5.readdir_end env it).closedir env it).2.set_errno
                      (w5.readdir_end env it).errno) loc1.results items
                      loc1.result_capacity w.live :=
                    (sameHeap_set_errno _ _).inv ((sameHeap_closedir env _ it).inv hinv6)
                  have := free_content_names_inv hinv8
                  rw [hl.2]
                  exact Or.inl ⟨rfl, Or.inl ⟨rfl, this.1, this.2.1⟩⟩
                · rw [if_neg herr] at hr
                  have hinv7 : Inv (((w5.readdir_end env it).rewinddir it).closedir env it).2
                      loc1.results items loc1.result_capacity w.live :=
                    (sameHeap_closedir env _ it).inv ((sameHeap_rewinddir _ it).inv hinv6)
                  cases hcl : ((w5.readdir_end env it).rewinddir it).closedir env it with
                  | mk ok w8 =>
                    rw [hcl] at hr hinv7
                    simp only at hinv7
                    cases ok with
                    | false =>
                      simp only at hr
                      subst hr
                      have := free_content_names_inv hinv7
                      rw [hl.2]
                      exact Or.inl ⟨rfl, Or.inl ⟨rfl, this.1, this.2.1⟩⟩
                    | true =>
                      simp only at hr
                      by_cases hz : loc1.result_count = 0
                      · rw [if_pos hz] at hr
                        subst hr
                        have := free_content_names_inv hinv7
                        have hnil : items = [] := by
                          rw [hl.2] at hz
                          exact List.length_eq_zero.mp hz
                        refine Or.inr (Or.inl ⟨rfl, by simp [hz], ?_, ?_, ?_⟩)
                        · rw [← hk, hnil]; rfl
                        · rw [hl.2]; exact this.1
                        · rw [hl.2]; exact this.2.1
                      · rw [if_neg hz] at hr
                        subst hr
                        have hne : items ≠ [] := by
                          intro h0
                          rw [hl.2, h0] at hz
                          exact hz rfl
                        exact Or.inr (Or.inr ⟨rfl, loc1.results, items, loc1.result_capacity,
                          hne, by simp [hl.2], hk, hinv7⟩)

theorem listing_of_slots (a : NameArray) (items : List (Ptr × Name)) (rest : List Slot)
    (h : a.slots = items.map mkSlot ++ rest) :
    listing (some a) items.length = items.map (fun x => some x.2) := by
  apply List.ext_getElem
  · simp [listing]
  · intro i h1 h2
    have hi : i < items.length := by simpa [listing] using h1
    have hget : (items.map mkSlot ++ rest).getD i Slot.uninit = mkSlot items[i] := by
      rw [List.getD_append _ _ _ _ (by simpa using hi)]
      rw [List.getD_eq_getElem _ _ (by simpa using hi)]
      simp
    simp only [listing, List.getElem_map, List.getElem_range, readSlot, h]
    rw [hget]
    rfl

theorem take_set_succ {α : Type} (l : List α) : ∀ (i : Nat) (x : α), i < l.length →
    (l.set i x).take (i + 1) = l.take i ++ [x] := by
  induction l with
  | nil => intro i x h; simp at h
  | cons y l ih =>
    intro i x h
    cases i with
    | zero => simp
    | succ i =>
      simp only [List.length_cons, Nat.add_lt_add_iff_right] at h
      simp [ih i x h]

theorem inv_slot_at {w : World} {a : NameArray} {done rest : List (Ptr × Name)}
    {x : Ptr × Name} {cap : Nat} {extra : List Ptr}
    (h : Inv w a (done ++ x :: rest) cap extra) :
    a.slots.getD done.length Slot.uninit = Slot.name x.1 x.2 := by
  rw [h.slots]
  simp only [List.map_append, List.map_cons, List.append_assoc]
  rw [List.getD_append_right _ _ _ _ (by simp)]
  simp [mkSlot]

/-- Dropping a vanished entry (lines 188-193) keeps the array well formed. -/
theorem inv_drop {w : World} {a : NameArray} {done rest : List (Ptr × Name)}
    {x : Ptr × Name} {cap : Nat} {extra : List Ptr}
    (h : Inv w a (done ++ x :: rest) cap extra) :
    Inv (w.free x.1) (compact a done.length (done.length + (rest.length + 1)))
      (done ++ rest) cap extra := by
  obtain ⟨np, nslots⟩ := a
  have hle := h.le
  simp only [List.length_append, List.length_cons] at hle
  have hsl : nslots = done.map mkSlot ++ (mkSlot x :: (rest.map mkSlot
      ++ List.replicate (cap - (done ++ x :: rest).length) Slot.null)) := by
    have := h.slots
    simpa using this
  have hc := compact_slots np (done.map mkSlot) (rest.map mkSlot)
    (List.replicate (cap - (done ++ x :: rest).length) Slot.null) (mkSlot x)
  simp only [List.length_map] at hc
  refine ⟨?_, ?_, h.pos, h.fits, h.shape, ?_, ?_⟩
  · rw [hsl, hc]
    have e1 : cap - (done ++ rest).length
        = (cap - (done ++ x :: rest).length) + 1 := by
      simp only [List.length_append, List.length_cons]; omega
    rw [e1, List.replicate_succ]
    simp
  · simp only [List.length_append]; omega
  · have h1 : w.live.Perm (x.1 :: (np :: ((done ++ rest).map Prod.fst ++ extra))) := by
      refine h.live.trans ?_
      refine List.Perm.trans ?_ (List.Perm.swap _ _ _)
      refine List.Perm.cons _ ?_
      simp only [List.map_append, List.map_cons, List.append_assoc, List.cons_append]
      exact List.perm_middle
    have := h1.erase x.1
    simpa [World.free, compact] using this
  · exact h.acc.free (h.live.symm.subset (by simp))

/-- On a well-formed pair of arrays `free_contents` releases everything the
call allocated. -/
theorem free_contents_inv {w : World} {a : NameArray} {m : MetaArray}
    {items : List (Ptr × Name)} {cap : Nat} {extra : List Ptr}
    (h : Inv w a items cap (m.ptr :: extra)) :
    (free_contents (some a) (some m) items.length w).live.Perm extra
      ∧ Acc (free_contents (some a) (some m) items.length w) := by
  obtain ⟨h1, h2, -⟩ := free_content_names_inv h
  unfold free_contents
  refine ⟨?_, h2.free (h1.symm.subset (by simp))⟩
  have := h1.erase m.ptr
  simpa [World.free] using this

theorem stat_loop_spec (env : Env) (directory : Fd) (todo : List (Ptr × Name)) :
    ∀ (done : List (Ptr × Name)) (names : NameArray) (metadata : MetaArray) (w : World)
      (cap : Nat) (extra : List Ptr) (recs : List Stat),
    Inv w names (done ++ todo) cap (metadata.ptr :: extra) →
    done.length + todo.length ≤ metadata.cells.length →
    metadata.cells.take done.length = recs →
    (∀ sv, resolve env w.queries todo = some sv →
      (stat_loop env directory todo.length done.length names metadata w).ret = Outcome.ret 0
      ∧ ∃ a m, (stat_loop env directory todo.length done.length names metadata w).out
            = some (some a, some m, done.length + sv.length)
          ∧ Inv (stat_loop env directory todo.length done.length names metadata w).world a
              (done ++ sv.map Prod.fst) cap (m.ptr :: extra)
          ∧ m.cells.take (done.length + sv.length) = recs ++ sv.map Prod.snd)
    ∧ (resolve env w.queries todo = none →
      (stat_loop env directory todo.length done.length names metadata w).ret
          = Outcome.ret (-1)
      ∧ (stat_loop env directory todo.length done.length names metadata w).out = none
      ∧ (stat_loop env directory todo.length done.length names metadata w).world.live.Perm extra
      ∧ Acc (stat_loop env directory todo.length done.length names metadata w).world) := by
  induction todo with
  | nil =>
    intro done names metadata w cap extra recs hinv hlen hrecs
    refine ⟨fun sv hsv => ?_, fun hn => by simp [resolve] at hn⟩
    simp only [resolve, Option.some.injEq] at hsv
    subst hsv
    simp only [List.length_nil, stat_loop, List.map_nil, List.append_nil, Nat.add_zero,
      true_and]
    exact ⟨names, metadata, rfl, by simpa using hinv, hrecs⟩
  | cons x rest ih =>
    intro done names metadata w cap extra recs hinv hlen hrecs
    have hslot := inv_slot_at hinv
    simp only [List.length_cons] at hlen
    have hstep : stat_loop env directory (x :: rest).length done.length names metadata w
        = (match w.fstatat env directory x.2 with
          | (StatResult.ok st, w1) =>
            stat_loop env directory rest.length (done.length + 1) names
              ⟨metadata.ptr, metadata.cells.set done.length st⟩ w1
          | (StatResult.fail _, w1) =>
            if w1.errno = ENOENT then
              stat_loop env directory rest.length done.length
                (compact names done.length (done.length + (rest.length + 1))) metadata
                ((w1.free x.1).set_errno 0)
            else
              ⟨Outcome.ret (-1), none,
                free_contents (some names) (some metadata)
                  (done.length + (rest.length + 1)) w1⟩) := by
      simp only [List.length_cons, stat_loop, hslot]
    rw [hstep]
    have hsame := sameHeap_fstatat env w directory x.2
    have hq : (w.fstatat env directory x.2).2.queries = w.queries + 1 := rfl
    have hres : (w.fstatat env directory x.2).1 = env.fstatat w.queries x.2 := rfl
    cases hf : w.fstatat env directory x.2 with
    | mk res w1 =>
      rw [hf] at hsame hq hres
      simp only at hsame hq hres
      have hinv1 : Inv w1 names (done ++ x :: rest) cap (metadata.ptr :: extra) :=
        hsame.inv hinv
      cases res with
      | ok st =>
        simp only
        have hinv2 : Inv w1 names ((done ++ [x]) ++ rest) cap (metadata.ptr :: extra) := by
          simpa using hinv1
        have hrecs2 : (metadata.cells.set done.length st).take (done ++ [x]).length
            = recs ++ [st] := by
          rw [← hrecs]
          simp only [List.length_append, List.length_singleton]
          exact take_set_succ _ _ _ (by omega)
        have := ih (done ++ [x]) names ⟨metadata.ptr, metadata.cells.set done.length st⟩ w1 cap
          extra (recs ++ [st]) hinv2 (by simp; omega) hrecs2
        simp only [List.length_append, List.length_singleton] at this
        refine ⟨fun sv hsv => ?_, fun hn => ?_⟩
        · simp only [resolve, ← hres, Option.map_eq_some'] at hsv
          obtain ⟨sv1, hsv1, rfl⟩ := hsv
          rw [← hq] at hsv1
          obtain ⟨b1, a, m, b2, b3, b4⟩ := this.1 sv1 hsv1
          refine ⟨b1, a, m, ?_, ?_, ?_⟩
          · rw [b2]; simp; omega
          · simpa using b3
          · simp only [List.length_cons, List.map_cons]
            rw [← Nat.add_assoc, Nat.add_right_comm, b4]
            simp
        · simp only [resolve, ← hres, Option.map_eq_none'] at hn
          rw [← hq] at hn
          exact this.2 hn
      | fail e =>
        have herrno : w1.errno = e := by
          have : (w.fstatat env directory x.2).2.errno
              = (match (w.fstatat env directory x.2).1 with
                | StatResult.ok _ => w.errno
                | StatResult.fail e => e) := rfl
          rw [hf] at this
          exact this
        simp only [herrno]
        by_cases he : e = ENOENT
        · rw [if_pos he]
          have hinv2 : Inv ((w1.free x.1).set_errno 0)
              (compact names done.length (done.length + (rest.length + 1)))
              (done ++ rest) cap (metadata.ptr :: extra) :=
            (sameHeap_set_errno _ _).inv (inv_drop hinv1)
          have := ih done _ metadata ((w1.free x.1).set_errno 0) cap extra recs hinv2
            (by omega) hrecs
          have hq2 : ((w1.free x.1).set_errno 0).queries = w.queries + 1 := hq
          rw [hq2] at this
          refine ⟨fun sv hsv => ?_, fun hn => ?_⟩
          · simp only [resolve, ← hres, he, if_true] at hsv
            exact this.1 sv hsv
          · simp only [resolve, ← hres, he, if_true] at hn
            exact this.2 hn
        · rw [if_neg he]
          refine ⟨fun sv hsv => ?_, fun _ => ?_⟩
          · simp [resolve, ← hres, he] at hsv
          · have hfc := free_contents_inv hinv1
            simp only [List.length_append, List.length_cons] at hfc
            exact ⟨rfl, rfl, hfc.1, hfc.2⟩

/-- Descriptor bookkeeping of a whole call: no metadata query is made; and
unless the loop runs into undefined behaviour, which takes more than
`15 * 2 ^ 27` names, the open descriptors are as before and the only
descriptor closed is the duplicate, closed once, when the initial allocation
and the duplication succeed. -/
theorem read_content_names_frame (env : Env) (directory : Fd) (w : World) (hacc : Acc w) :
    (read_content_names env directory w).world.queries = w.queries
    ∧ ((15 * 2 ^ 27 < (kept env.entries).length
          ∧ (read_content_names env directory w).ret = Outcome.undefined
          ∧ (∀ fd, closes fd (read_content_names env directory w).world.trace
              = closes fd w.trace)
          ∧ ∀ fd, fd ∈ w.fds → fd ∈ (read_content_names env directory w).world.fds)
      ∨ ((read_content_names env directory w).world.fds = w.fds
        ∧ ∀ fd, closes fd (read_content_names env directory w).world.trace
            = closes fd w.trace
              + (if env.alloc_ok w.allocs = true ∧ env.dup = some fd then 1 else 0))) := by
  unfold read_content_names
  cases hc : w.calloc env _INITIAL_NAME_CAPACITY with
  | mk rp w1 =>
    cases rp with
    | none =>
      obtain ⟨-, b1, b2, b3, b4, -, b6⟩ := calloc_none hc
      have hq : Quiet w w1 := quiet_of_trace b2 b3 b4 b1 (by simp [closes])
      simp only [b6]
      exact ⟨hq.2.2.1, Or.inr ⟨hq.1, fun fd => by simpa using hq.2.2.2 fd⟩⟩
    | some p =>
      obtain ⟨-, -, -, b1, b2, b3, b4, -, b6⟩ := calloc_some hc
      have hq1 : Quiet w w1 := quiet_of_trace b2 b3 b4 b1 (by simp [closes])
      simp only [b6, true_and]
      cases hdup : env.dup with
      | none =>
        have hq2 : Quiet w1 (w1.fcntl_dupfd env directory).2 := by
          simp only [World.fcntl_dupfd, hdup]
          exact quiet_of_trace rfl rfl rfl rfl (by simp [closes])
        have hd : w1.fcntl_dupfd env directory
            = (none, (w1.fcntl_dupfd env directory).2) := by
          simp [World.fcntl_dupfd, hdup]
        rw [hd]
        simp only
        have hq := (hq1.then_quiet hq2).then_quiet (freesOnly_free_content_names
          (some (initial_locals p).results) (initial_locals p).result_count
          (w1.fcntl_dupfd env directory).2).to_quiet
        exact ⟨hq.2.2.1, Or.inr ⟨hq.1, fun fd => by simpa using hq.2.2.2 fd⟩⟩
      | some d =>
        have hd : w1.fcntl_dupfd env directory
            = (some d, (w1.fcntl_dupfd env directory).2) := by
          simp [World.fcntl_dupfd, hdup]
        rw [hd]
        simp only
        generalize hw2 : (w1.fcntl_dupfd env directory).2 = w2
        have h2fds : w2.fds = d :: w.fds := by
          rw [← hw2]; simp [World.fcntl_dupfd, hdup, b2]
        have h2q : w2.queries = w.queries := by
          rw [← hw2]; simp [World.fcntl_dupfd, hdup, b4]
        have h2c : ∀ fd, closes fd w2.trace = closes fd w.trace := by
          intro fd
          rw [← hw2]
          simp only [World.fcntl_dupfd, hdup, closes_append]
          rw [hq1.2.2.2 fd]
          simp [closes]
        -- every way on from here closes the stream or the descriptor once
        have finish : ∀ (w9 : World) (P : Prop), Closed d w2 w9 →
            w9.queries = w.queries ∧ (P ∨ (w9.fds = w.fds
            ∧ ∀ fd, closes fd w9.trace
                = closes fd w.trace + (if some d = some fd then 1 else 0))) := by
          intro w9 P h9
          refine ⟨h9.2.1.trans h2q, Or.inr ⟨by rw [h9.1, h2fds]; simp, fun fd => ?_⟩⟩
          rw [h9.2.2 fd, h2c fd]
          by_cases hfd : fd = d
          · subst hfd; simp
          · have : ¬ d = fd := fun h => hfd h.symm
            simp [hfd, this]
        cases ho : w2.fdopendir env d with
        | mk ro w3 =>
          have hq3 : Quiet w2 w3 := by
            have : w3 = (w2.fdopendir env d).2 := by rw [ho]
            rw [this]
            unfold World.fdopendir
            split <;> exact quiet_of_trace rfl rfl rfl rfl (by simp [closes])
          cases ro with
          | none =>
            simp only
            apply finish
            exact hq3.to_calm.before_closed ((((closed_close w3 d).frees
              (freesOnly_free_content_names _ _ _)).and_calm (calm_set_errno _ 0)).and_calm
                (calm_log (by simp [closes])))
          | some it =>
            have hit : it = d := by
              unfold World.fdopendir at ho
              split at ho <;> simp at ho
              exact ho.1.symm
            subst hit
            simp only
            have hq4 : Calm w2 (w3.set_errno 0) := hq3.to_calm.then_calm (calm_set_errno w3 0)
            have hloop := names_loop_frame env it env.entries (initial_locals p)
              (w3.set_errno 0)
            cases hn : names_loop env it env.entries (initial_locals p) (w3.set_errno 0) with
            | fail w5 =>
              simp only
              exact finish _ _ (hq4.before_closed (hloop.2.1 _ hn))
            | undefined w5 =>
              simp only
              have hinv1 := inv_initial hacc hc
              have hs2 : SameHeap w1 w2 := by
                have := sameHeap_fcntl_dupfd env w1 directory
                rw [hw2] at this
                exact this
              have hs3 : SameHeap w2 w3 := by
                have := sameHeap_fdopendir env w2 it
                rw [ho] at this
                exact this
              have hinv4 : LInv (w3.set_errno 0) (initial_locals p) [] w.live :=
                ⟨(sameHeap_set_errno w3 0).inv (hs3.inv (hs2.inv hinv1.1)), hinv1.2⟩
              have hbig := (names_loop_inv env it env.entries _ _ _ _ hinv4).2.2 _ hn
              refine ⟨?_, Or.inl ⟨by simpa using hbig, trivial, fun fd => ?_, fun fd hfd => ?_⟩⟩
              · rw [(hloop.2.2 _ hn).2.2.1]
                exact hq4.2.1.trans h2q
              · rw [(hloop.2.2 _ hn).2.2.2 fd, hq4.2.2 fd, h2c fd]
              · rw [(hloop.2.2 _ hn).1, hq4.1, h2fds]
                exact List.mem_cons_of_mem _ hfd
            | go loc1 w5 =>
              simp only [names_finish]
              have hq6 : Calm w2 (w5.readdir_end env it) :=
                (hq4.then_calm (hloop.1 _ _ hn).to_calm).then_calm (calm_readdir_end env w5 it)
              split
              · apply finish
                exact hq6.before_closed (((closed_closedir env it _).and_calm (calm_set_errno _ _)).frees
                  (freesOnly_free_content_names _ _ _))
              · have hcl : Closed it w2 (((w5.readdir_end env it).rewinddir it).closedir
                    env it).2 :=
                  (hq6.then_calm (calm_log (by simp [closes]))).before_closed (closed_closedir env it _)
                cases hcd : ((w5.readdir_end env it).rewinddir it).closedir env it with
                | mk ok w8 =>
                  rw [hcd] at hcl
                  simp only at hcl
                  cases ok with
                  | false =>
                    simp only
                    exact finish _ _ (hcl.frees (freesOnly_free_content_names _ _ _))
                  | true =>
                    simp only
                    split
                    · exact finish _ _ (hcl.frees (freesOnly_free_content_names _ _ _))
                    · exact finish _ _ hcl

theorem free_content_names_null (w : World) : free_content_names none 0 w = w := by
  simp [free_content_names, forLoop]

theorem free_contents_null (w : World) : free_contents none none 0 w = w := by
  simp [free_contents, free_content_names_null]

/-- Every run of `read_contents` from a well-accounted heap goes one of five
ways: the name listing does not return 0; the listing is empty; the metadata
allocation fails; a query fails fatally; or every query is resolved. -/
theorem read_contents_spec (env : Env) (directory : Fd) (w : World) (hacc : Acc w) :
    ∀ r, r = read_contents env directory w →
    (r.out = none ∧ r.ret = (read_content_names env directory w).ret
        ∧ (read_content_names env directory w).ret ≠ Outcome.ret 0
        ∧ r.world = (read_content_names env directory w).world)
    ∨ (r.ret = Outcome.ret 0 ∧ r.out = some (none, none, 0) ∧ kept env.entries = []
        ∧ r.world = (read_content_names env directory w).world
        ∧ r.world.live.Perm w.live ∧ Acc r.world)
    ∨ (∃ items : List (Ptr × Name), items ≠ [] ∧ items.map Prod.snd = kept env.entries
        ∧ (read_content_names env directory w).ret = Outcome.ret 0
        ∧ ((env.alloc_ok (read_content_names env directory w).world.allocs = false
            ∧ r.ret = Outcome.ret (-1) ∧ r.out = none ∧ r.world.live.Perm w.live ∧ Acc r.world)
          ∨ (env.alloc_ok (read_content_names env directory w).world.allocs = true
            ∧ resolve env w.queries items = none
            ∧ r.ret = Outcome.ret (-1) ∧ r.out = none ∧ r.world.live.Perm w.live ∧ Acc r.world)
          ∨ (env.alloc_ok (read_content_names env directory w).world.allocs = true
            ∧ ∃ sv a m cap, resolve env w.queries items = some sv
              ∧ r.ret = Outcome.ret 0 ∧ r.out = some (some a, some m, sv.length)
              ∧ Inv r.world a (sv.map Prod.fst) cap (m.ptr :: w.live)
              ∧ m.cells.take sv.length = sv.map Prod.snd))) := by
  intro r hr
  unfold read_contents at hr
  dsimp only at hr
  have hq := (read_content_names_frame env directory w hacc).1
  rcases read_content_names_heap env directory w hacc _ rfl with h | h | h
  · obtain ⟨h1, h2⟩ := h
    refine Or.inl ?_
    rcases h2 with ⟨h2, -, -⟩ | h2
    · rw [h2] at hr ⊢
      simp only at hr
      rw [if_pos (by decide)] at hr
      subst hr
      exact ⟨rfl, rfl, by decide, rfl⟩
    · rw [h2] at hr ⊢
      simp only at hr
      subst hr
      exact ⟨rfl, rfl, by simp, rfl⟩
  · obtain ⟨h1, h2, h3, h4, h5⟩ := h
    refine Or.inr (Or.inl ?_)
    rw [h1, h2] at hr
    simp only at hr
    rw [if_neg (by decide)] at hr
    simp only [if_true, free_content_names_null] at hr
    subst hr
    exact ⟨rfl, rfl, h3, rfl, h4, h5⟩
  · obtain ⟨h1, a, items, cap, hne, hout, hk, hinv⟩ := h
    refine Or.inr (Or.inr ⟨items, hne, hk, h1, ?_⟩)
    have hlen : items.length ≠ 0 := fun h0 => hne (List.length_eq_zero.mp h0)
    rw [h1, hout] at hr
    simp only at hr
    rw [if_neg (by decide), if_neg hlen] at hr
    cases hc : (read_content_names env directory w).world.calloc env items.length with
    | mk rm w1 =>
      rw [hc] at hr
      cases rm with
      | none =>
        simp only at hr
        subst hr
        obtain ⟨hs, -, -, -, -, -, b6⟩ := calloc_none hc
        have := free_content_names_inv (hs.inv hinv)
        exact Or.inl ⟨b6, rfl, rfl, this.1, this.2.1⟩
      | some mp =>
        simp only at hr
        obtain ⟨hp, hlive, hnext, htrace, -, -, b4, -, b6⟩ := calloc_some hc
        have hinv1 : Inv w1 a ([] ++ items) cap
            ((⟨mp, List.replicate items.length Stat.zero⟩ : MetaArray).ptr :: w.live) := by
          refine ⟨by simpa using hinv.slots, by simpa using hinv.le, hinv.pos, hinv.fits,
            hinv.shape, ?_, ?_⟩
          · rw [hlive, hp]
            simp only [List.nil_append]
            refine (List.Perm.cons _ hinv.live).trans ?_
            refine (List.Perm.swap _ _ _).trans (List.Perm.cons _ ?_)
            exact List.perm_middle.symm
          · exact acc_alloc_log _ hinv.acc hlive hnext htrace (by simp [releases]) (by simp)
        have hspec := stat_loop_spec env directory items [] a
          ⟨mp, List.replicate items.length Stat.zero⟩ w1 cap w.live [] hinv1 (by simp) (by simp)
        have hq1 : w1.queries = w.queries := by rw [b4, hq]
        rw [hq1] at hspec
        simp only [List.length_nil, List.nil_append, Nat.zero_add] at hspec
        subst hr
        cases hres : resolve env w.queries items with
        | none =>
          have := hspec.2 hres
          exact Or.inr (Or.inl ⟨b6, rfl, this.1, this.2.1, this.2.2.1, this.2.2.2⟩)
        | some sv =>
          obtain ⟨c1, a2, m2, c2, c3, c4⟩ := hspec.1 sv hres
          exact Or.inr (Or.inr ⟨b6, sv, a2, m2, cap, rfl, c1, c2, c3, c4⟩)

theorem resolve_of_benign (env : Env) (items : List (Ptr × Name)) : ∀ (q : Nat),
    (∀ k nm, (items.map Prod.snd).get? k = some nm →
      (∃ st, env.fstatat (q + k) nm = StatResult.ok st)
        ∨ env.fstatat (q + k) nm = StatResult.fail ENOENT) →
    ∃ sv, resolve env q items = some sv
      ∧ sv.map (fun y => (y.1.2, y.2))
        = (List.enumFrom q (items.map Prod.snd)).filterMap fun p =>
            match env.fstatat p.1 p.2 with
            | StatResult.ok st => some (p.2, st)
            | StatResult.fail _ => none := by
  induction items with
  | nil => intro q _; exact ⟨[], rfl, rfl⟩
  | cons x rest ih =>
    intro q h
    have hrest : ∀ k nm, (rest.map Prod.snd).get? k = some nm →
        (∃ st, env.fstatat (q + 1 + k) nm = StatResult.ok st)
          ∨ env.fstatat (q + 1 + k) nm = StatResult.fail ENOENT := by
      intro k nm hk
      have := h (k + 1) nm (by simpa using hk)
      rw [Nat.add_assoc, Nat.add_comm 1 k]
      exact this
    obtain ⟨sv, h1, h2⟩ := ih (q + 1) hrest
    have h0 := h 0 x.2 (by simp)
    simp only [Nat.add_zero] at h0
    rcases h0 with ⟨st, hst⟩ | hst
    · refine ⟨(x, st) :: sv, by simp [resolve, hst, h1], ?_⟩
      simp [List.enumFrom, List.filterMap_cons, hst, h2]
    · refine ⟨sv, by simp [resolve, hst, h1], ?_⟩
      simp [List.enumFrom, List.filterMap_cons, hst, h2]

theorem resolve_of_fatal (env : Env) (items : List (Ptr × Name)) : ∀ (q i : Nat) (nm : Name)
    (e : Nat), (items.map Prod.snd).get? i = some nm →
    env.fstatat (q + i) nm = StatResult.fail e → e ≠ ENOENT →
    (∀ k nm2, k < i → (items.map Prod.snd).get? k = some nm2 →
      (∃ st, env.fstatat (q + k) nm2 = StatResult.ok st)
        ∨ env.fstatat (q + k) nm2 = StatResult.fail ENOENT) →
    resolve env q items = none := by
  induction items with
  | nil => intro q i nm e h; simp at h
  | cons x rest ih =>
    intro q i nm e hi hf he hb
    cases i with
    | zero =>
      simp only [List.map_cons, List.get?_cons_zero, Option.some.injEq] at hi
      subst hi
      simp only [Nat.add_zero] at hf
      simp [resolve, hf, he]
    | succ i =>
      have hrec := ih (q + 1) i nm e (by simpa using hi)
        (by rw [Nat.add_assoc, Nat.add_comm 1 i]; exact hf) he
        (by
          intro k nm2 hk hget
          have := hb (k + 1) nm2 (by omega) (by simpa using hget)
          rw [Nat.add_assoc, Nat.add_comm 1 k]
          exact this)
      have h0 := hb 0 x.2 (by omega) (by simp)
      simp only [Nat.add_zero] at h0
      rcases h0 with ⟨st, hst⟩ | hst
      · simp [resolve, hst, hrec]
      · simp [resolve, hst, hrec]

theorem records_of_cells (m : MetaArray) (recs : List Stat)
    (h : m.cells.take recs.length = recs) :
    records (some m) recs.length = recs.map some := by
  apply List.ext_getElem
  · simp [records]
  · intro i h1 h2
    have hi : i < recs.length := by simpa [records] using h1
    have : m.cells.get? i = recs.get? i := by
      have := congrArg (fun l => l.get? i) h
      simp only at this
      rw [← this]
      simp [List.getElem?_take, hi]
    simp only [records, List.getElem_map, List.getElem_range, this]
    simp [List.getElem?_eq_getElem hi]

/-- C2: for a listing that is not empty (a listing holds at most
`15 * 2 ^ 27` names, the most `read_content_names` can count in an `int`)
and metadata queries each of which either succeeds or fails with ENOENT,
`read_contents` returns 0; the count it stores is the number of names whose
query succeeded, the names a caller reads are exactly those names in listing
order, and `metadata[j]` is the record the query made for `names[j]`
produced. -/
theorem read_contents_keeps_resolved_in_order (env : Env) (directory : Fd) (fds : List Fd)
    (errno : Nat) (d : Fd)
    (halloc : ∀ n, env.alloc_ok n = true) (hdup : env.dup = some d)
    (hopen : env.fdopendir_ok = true) (hread : env.readdir_errno = 0)
    (hclose : env.closedir_ok = true)
    (hN : (env.entries.filter fun n => decide (n ≠ "." ∧ n ≠ "..")).length ≤ 15 * 2 ^ 27)
    (hne : (env.entries.filter fun n => decide (n ≠ "." ∧ n ≠ "..")) ≠ [])
    (hbenign : ∀ k nm,
      (env.entries.filter fun n => decide (n ≠ "." ∧ n ≠ "..")).get? k = some nm →
      (∃ st, env.fstatat k nm = StatResult.ok st)
        ∨ env.fstatat k nm = StatResult.fail ENOENT) :
    (read_contents env directory (World.init fds errno)).ret = Outcome.ret 0
    ∧ ∃ names metadata count,
        (read_contents env directory (World.init fds errno)).out
          = some (names, metadata, count)
        ∧ count = ((env.entries.filter fun n => decide (n ≠ "." ∧ n ≠ "..")).enum.filterMap
            fun p => match env.fstatat p.1 p.2 with
              | StatResult.ok st => some (p.2, st)
              | StatResult.fail _ => none).length
        ∧ listing names count
          = ((env.entries.filter fun n => decide (n ≠ "." ∧ n ≠ "..")).enum.filterMap
            fun p => match env.fstatat p.1 p.2 with
              | StatResult.ok st => some (p.2, st)
              | StatResult.fail _ => none).map (fun y => some y.1)
        ∧ records metadata count
          = ((env.entries.filter fun n => decide (n ≠ "." ∧ n ≠ "..")).enum.filterMap
            fun p => match env.fstatat p.1 p.2 with
              | StatResult.ok st => some (p.2, st)
              | StatResult.fail _ => none).map (fun y => some y.2) := by
  have hret := read_content_names_ok directory (World.init fds errno) (acc_init fds errno)
    halloc hdup hopen hread hclose hN
  rcases read_contents_spec env directory _ (acc_init fds errno) _ rfl with h | h | h
  · exact absurd hret h.2.2.1
  · exact absurd h.2.2.1 hne
  · obtain ⟨items, -, hk, -, h⟩ := h
    have hb : ∀ k nm, (items.map Prod.snd).get? k = some nm →
        (∃ st, env.fstatat (0 + k) nm = StatResult.ok st)
          ∨ env.fstatat (0 + k) nm = StatResult.fail ENOENT := by
      intro k nm hget
      rw [Nat.zero_add]
      exact hbenign k nm (by rw [hk] at hget; exact hget)
    obtain ⟨sv, hsv, hsnap⟩ := resolve_of_benign env items 0 hb
    rw [hk] at hsnap
    have hq0 : (World.init fds errno).queries = 0 := rfl
    rw [hq0] at h
    rcases h with h | h | h
    · have := h.1
      rw [halloc] at this
      cases this
    · have := h.2.1
      rw [hsv] at this
      cases this
    · obtain ⟨-, sv2, a, m, cap, h1, h2, h3, h4, h5⟩ := h
      rw [hsv] at h1
      cases h1
      have hlen : sv.length = ((kept env.entries).enum.filterMap
          fun p => match env.fstatat p.1 p.2 with
            | StatResult.ok st => some (p.2, st)
            | StatResult.fail _ => none).length := by
        have := congrArg List.length hsnap
        simpa [List.enum] using this
      refine ⟨h2, some a, some m, sv.length, h3, hlen, ?_, ?_⟩
      · have hl := listing_of_slots a (sv.map Prod.fst) _ h4.slots
        simp only [List.length_map] at hl
        rw [hl]
        have := congrArg (List.map fun y : Name × Stat => some y.1) hsnap
        simpa [List.enum, kept] using this
      · have hr := records_of_cells m (sv.map Prod.snd) (by simpa using h5)
        simp only [List.length_map] at hr
        rw [hr]
        have := congrArg (List.map fun y : Name × Stat => some y.2) hsnap
        simpa [List.enum, kept] using this

/-- C3: for a stream that yields only "." and "..", `read_content_names`
returns 0 with names = NULL and count = 0, and `read_contents` returns 0
with names = NULL, metadata = NULL and count = 0 having done nothing beyond
the name listing: no allocation request and no metadata query is added.
Releasing the empty value changes nothing. -/
theorem empty_directory_gives_null (env : Env) (directory : Fd) (fds : List Fd)
    (errno : Nat) (d : Fd)
    (halloc : ∀ n, env.alloc_ok n = true) (hdup : env.dup = some d)
    (hopen : env.fdopendir_ok = true) (hread : env.readdir_errno = 0)
    (hclose : env.closedir_ok = true)
    (hempty : ∀ n ∈ env.entries, n = "." ∨ n = "..") :
    (read_content_names env directory (World.init fds errno)).ret = Outcome.ret 0
    ∧ (read_content_names env directory (World.init fds errno)).out = some (none, 0)
    ∧ (read_contents env directory (World.init fds errno)).ret = Outcome.ret 0
    ∧ (read_contents env directory (World.init fds errno)).out = some (none, none, 0)
    ∧ (read_contents env directory (World.init fds errno)).world
        = (read_content_names env directory (World.init fds errno)).world
    ∧ (read_contents env directory (World.init fds errno)).world.queries = 0
    ∧ (∀ w, free_content_names none 0 w = w)
    ∧ (∀ w, free_contents none none 0 w = w) := by
  have hkept : kept env.entries = [] := by
    simp only [kept, List.filter_eq_nil_iff]
    intro n hn
    rcases hempty n hn with h | h <;> simp [h]
  have hret := read_content_names_ok directory (World.init fds errno) (acc_init fds errno)
    halloc hdup hopen hread hclose (by rw [hkept]; simp)
  have hnames : (read_content_names env directory (World.init fds errno)).out
      = some (none, 0) := by
    rcases read_content_names_heap env directory _ (acc_init fds errno) _ rfl with h | h | h
    · rcases h.2 with h2 | h2
      · rw [hret] at h2; cases h2.1
      · rw [hret] at h2; cases h2
    · exact h.2.1
    · obtain ⟨-, a, items, cap, hne, -, hk, -⟩ := h
      rw [hkept] at hk
      exact absurd (List.map_eq_nil_iff.mp hk) hne
  refine ⟨hret, hnames, ?_⟩
  rcases read_contents_spec env directory _ (acc_init fds errno) _ rfl with h | h | h
  · exact absurd hret h.2.2.1
  · refine ⟨h.1, h.2.1, h.2.2.2.1, ?_, free_content_names_null, free_contents_null⟩
    rw [h.2.2.2.1]
    exact (read_content_names_frame env directory (World.init fds errno)
      (acc_init fds errno)).1
  · obtain ⟨items, hne, hk, -⟩ := h
    rw [hkept] at hk
    exact absurd (List.map_eq_nil_iff.mp hk) hne

/-- C4: when the listing succeeds (it holds at most `15 * 2 ^ 27` names,
the most `read_content_names` can count in an `int`) and the query for the
name at index `i`
fails with an error other than ENOENT, every earlier query having succeeded
or failed with ENOENT, `read_contents` returns -1, writes no output and
leaves nothing allocated: every block the call obtained (name blocks, the
name array, the metadata array) was released exactly once, and no other
pointer was passed to `free`. -/
theorem read_contents_fatal_query_releases_all (env : Env) (directory : Fd) (fds : List Fd)
    (errno : Nat) (d : Fd) (i : Nat) (nm : Name) (e : Nat)
    (halloc : ∀ n, env.alloc_ok n = true) (hdup : env.dup = some d)
    (hopen : env.fdopendir_ok = true) (hread : env.readdir_errno = 0)
    (hclose : env.closedir_ok = true)
    (hN : (env.entries.filter fun n => decide (n ≠ "." ∧ n ≠ "..")).length ≤ 15 * 2 ^ 27)
    (hi : (env.entries.filter fun n => decide (n ≠ "." ∧ n ≠ "..")).get? i = some nm)
    (hfatal : env.fstatat i nm = StatResult.fail e) (he : e ≠ ENOENT)
    (hbefore : ∀ k nm2, k < i →
      (env.entries.filter fun n => decide (n ≠ "." ∧ n ≠ "..")).get? k = some nm2 →
      (∃ st, env.fstatat k nm2 = StatResult.ok st)
        ∨ env.fstatat k nm2 = StatResult.fail ENOENT) :
    (read_contents env directory (World.init fds errno)).ret = Outcome.ret (-1)
    ∧ (read_contents env directory (World.init fds errno)).out = none
    ∧ (read_contents env directory (World.init fds errno)).world.live = []
    ∧ (∀ p, p < (read_contents env directory (World.init fds errno)).world.next →
        (releases (read_contents env directory (World.init fds errno)).world.trace).count p = 1)
    ∧ (∀ p, (read_contents env directory (World.init fds errno)).world.next ≤ p →
        (releases (read_contents env directory (World.init fds errno)).world.trace).count p = 0)
    ∧ Event.free_wild ∉ (read_contents env directory (World.init fds errno)).world.trace := by
  have hret := read_content_names_ok directory (World.init fds errno) (acc_init fds errno)
    halloc hdup hopen hread hclose hN
  have key : (read_contents env directory (World.init fds errno)).ret = Outcome.ret (-1)
      ∧ (read_contents env directory (World.init fds errno)).out = none
      ∧ (read_contents env directory (World.init fds errno)).world.live.Perm []
      ∧ Acc (read_contents env directory (World.init fds errno)).world := by
    rcases read_contents_spec env directory _ (acc_init fds errno) _ rfl with h | h | h
    · exact absurd hret h.2.2.1
    · have hk : kept env.entries = [] := h.2.2.1
      simp only [kept] at hk
      rw [hk] at hi
      simp at hi
    · obtain ⟨items, -, hk, -, h⟩ := h
      have hnone : resolve env 0 items = none := by
        refine resolve_of_fatal env items 0 i nm e (by rw [hk]; exact hi)
          (by rw [Nat.zero_add]; exact hfatal) he ?_
        intro k nm2 hlt hget
        rw [Nat.zero_add]
        exact hbefore k nm2 hlt (by rw [hk] at hget; exact hget)
      rcases h with h | h | h
      · have := h.1
        rw [halloc] at this
        cases this
      · exact ⟨h.2.2.1, h.2.2.2.1, h.2.2.2.2.1, h.2.2.2.2.2⟩
      · obtain ⟨-, sv, a, m, cap, h1, -⟩ := h
        have : resolve env (World.init fds errno).queries items = none := hnone
        rw [this] at h1
        cases h1
  obtain ⟨h1, h2, h3, h4⟩ := key
  have hlive := List.Perm.eq_nil h3
  have hperm : (releases (read_contents env directory (World.init fds errno)).world.trace).Perm
      (List.range (read_contents env directory (World.init fds errno)).world.next) := by
    have := h4.1
    rw [hlive, List.append_nil] at this
    exact this
  refine ⟨h1, h2, hlive, fun p hp => ?_, fun p hp => ?_, h4.2⟩
  · rw [hperm.count_eq]
    exact List.count_eq_one_of_mem (List.nodup_range _) (List.mem_range.mpr hp)
  · rw [hperm.count_eq]
    exact List.count_eq_zero_of_not_mem (fun hm =>
      absurd (List.mem_range.mp hm) (Nat.not_lt.mpr hp))

theorem Inv.slot_lt {w : World} {a : NameArray} {items : List (Ptr × Name)}
    {cap : Nat} {extra : List Ptr} (h : Inv w a items cap extra) {i : Nat}
    (hlt : i < items.length) :
    a.slots.getD i Slot.uninit = Slot.name items[i].1 items[i].2 := by
  rw [h.slots, List.getD_append _ _ _ _ (by simpa using hlt)]
  rw [List.getD_eq_getElem _ _ (by simpa using hlt)]
  simp [mkSlot]

theorem Inv.sentinel {w : World} {a : NameArray} {items : List (Ptr × Name)}
    {cap : Nat} {extra : List Ptr} (h : Inv w a items cap extra) :
    Sentinel w.live a items.length cap := by
  refine ⟨h.live.symm.subset (by simp), h.slots_length, h.le,
    fun i hi => ⟨fun hlt => ?_, fun hge => ?_⟩⟩
  · refine ⟨items[i].1, items[i].2, h.slot_lt hlt, ?_⟩
    refine h.live.symm.subset ?_
    simp only [List.mem_cons, List.mem_append, List.mem_map]
    exact Or.inr (Or.inl ⟨items[i], List.getElem_mem _, rfl⟩)
  · rw [h.slots, List.getD_append_right _ _ _ _ (by simpa using hge)]
    rw [List.getD_eq_getElem _ _ (by simp; omega)]
    simp

theorem wellFormed_drop {w : World} {a : NameArray} {count cap i : Nat} {p : Ptr} {s : Name}
    (h : WellFormed w a count cap) (hi : i < count)
    (hslot : a.slots.getD i Slot.uninit = Slot.name p s) :
    WellFormed (w.free p) (compact a i count) (count - 1) cap := by
  obtain ⟨items, extra, hinv, hcount⟩ := h
  subst hcount
  have hsplit : items = items.take i ++ items[i] :: items.drop (i + 1) := by
    rw [← List.drop_eq_getElem_cons hi, List.take_append_drop]
  have hlen1 : (items.take i).length = i := by
    rw [List.length_take]; omega
  have hlen2 : (items.drop (i + 1)).length + 1 = items.length - i := by
    rw [List.length_drop]; omega
  have hinv2 : Inv w a (items.take i ++ items[i] :: items.drop (i + 1)) cap extra := by
    rw [← hsplit]; exact hinv
  have hat := inv_slot_at hinv2
  rw [hlen1, hslot] at hat
  have hp : p = items[i].1 := by
    simp only [Slot.name.injEq] at hat
    exact hat.1
  have hd := inv_drop hinv2
  rw [hlen1] at hd
  have hcnt : i + ((items.drop (i + 1)).length + 1) = items.length := by
    rw [hlen2]; omega
  rw [hcnt, ← hp] at hd
  refine ⟨_, extra, hd, ?_⟩
  simp only [List.length_append, hlen1, List.length_drop]
  omega

/-- C10: the null-sentinel invariant of the name array. A well-formed array
is a live block of `capacity` slots with the count at most the capacity, a
live name in every slot below the count and NULL in every slot from the count
up to the capacity. The array is well formed after the initial allocation. A
growth step keeps it well formed, keeps the count and the slots in use, and
leaves the count below the capacity; an append, which then finds the count
below the capacity, stores inside the array, keeps it well formed and raises
the count by one; so every pass of the loop body and every run of the loop
keeps it well formed; and so does every compaction of a vanished entry.
Hence a name array that `read_content_names` or `read_contents` returns is
well formed over its whole allocation: each slot points to a live name
(below the count) or is NULL. -/
theorem null_sentinel_invariant :
    (∀ (w : World) (a : NameArray) (count capacity : Nat),
        WellFormed w a count capacity → Sentinel w.live a count capacity)
    ∧ (∀ (env : Env) (w w1 : World) (p : Ptr), Acc w →
        w.calloc env _INITIAL_NAME_CAPACITY = (some p, w1) →
        WellFormed w1 (initial_locals p).results (initial_locals p).result_count
          (initial_locals p).result_capacity)
    ∧ (∀ (env : Env) (it : Fd) (loc loc1 : Locals) (w w1 : World),
        WellFormed w loc.results loc.result_count loc.result_capacity →
        grow env it loc w = Step.go loc1 w1 →
        WellFormed w1 loc1.results loc1.result_count loc1.result_capacity
        ∧ loc1.result_count = loc.result_count
        ∧ loc1.result_count < loc1.result_capacity
        ∧ ∀ i, i < loc.result_count →
            loc1.results.slots.getD i Slot.uninit = loc.results.slots.getD i Slot.uninit)
    ∧ (∀ (env : Env) (it : Fd) (d_name : Name) (loc : Locals) (w : World),
        WellFormed w loc.results loc.result_count loc.result_capacity →
        loc.result_count < loc.result_capacity →
        (∀ w1, append env it d_name loc w ≠ Step.undefined w1)
        ∧ ∀ loc1 w1, append env it d_name loc w = Step.go loc1 w1 →
            WellFormed w1 loc1.results loc1.result_count loc1.result_capacity
            ∧ loc1.result_count = loc.result_count + 1
            ∧ loc1.result_capacity = loc.result_capacity
            ∧ (∃ p, loc1.results.slots.getD loc.result_count Slot.uninit = Slot.name p d_name)
            ∧ ∀ i, i < loc.result_count →
                loc1.results.slots.getD i Slot.uninit = loc.results.slots.getD i Slot.uninit)
    ∧ (∀ (env : Env) (it : Fd) (e : Name) (loc loc1 : Locals) (w w1 : World),
        WellFormed w loc.results loc.result_count loc.result_capacity →
        loop_body env it e loc w = Step.go loc1 w1 →
        WellFormed w1 loc1.results loc1.result_count loc1.result_capacity)
    ∧ (∀ (env : Env) (it : Fd) (entries : List Name) (loc loc1 : Locals) (w w1 : World),
        WellFormed w loc.results loc.result_count loc.result_capacity →
        names_loop env it entries loc w = Step.go loc1 w1 →
        WellFormed w1 loc1.results loc1.result_count loc1.result_capacity)
    ∧ (∀ (w : World) (a : NameArray) (count capacity i : Nat) (p : Ptr) (s : Name),
        WellFormed w a count capacity → i < count →
        a.slots.getD i Slot.uninit = Slot.name p s →
        WellFormed (w.free p) (compact a i count) (count - 1) capacity)
    ∧ (∀ (env : Env) (directory : Fd) (fds : List Fd) (errno : Nat) (a : NameArray)
        (count : Nat),
        (read_content_names env directory (World.init fds errno)).out = some (some a, count) →
        WellFormed (read_content_names env directory (World.init fds errno)).world a count
          a.slots.length
        ∧ Sentinel (read_content_names env directory (World.init fds errno)).world.live a count
          a.slots.length)
    ∧ (∀ (env : Env) (directory : Fd) (fds : List Fd) (errno : Nat) (a : NameArray)
        (metadata : Option MetaArray) (count : Nat),
        (read_contents env directory (World.init fds errno)).out
          = some (some a, metadata, count) →
        WellFormed (read_contents env directory (World.init fds errno)).world a count
          a.slots.length
        ∧ Sentinel (read_contents env directory (World.init fds errno)).world.live a count
          a.slots.length) := by
  refine ⟨?_, ?_, ?_, ?_, ?_, ?_, ?_, ?_, ?_⟩
  · rintro w a count capacity ⟨items, extra, hinv, rfl⟩
    exact hinv.sentinel
  · intro env w w1 p hacc hc
    have := inv_initial hacc hc
    exact ⟨[], w.live, this.1, this.2⟩
  · rintro env it loc loc1 w w1 ⟨items, extra, hinv, hcount⟩ hg
    have := (grow_inv env it ⟨hinv, hcount⟩).1 _ _ hg
    refine ⟨⟨items, extra, this.1.1, this.1.2⟩, by rw [this.1.2, hcount],
      by rw [this.1.2]; exact this.2, fun i hi => ?_⟩
    rw [hcount] at hi
    rw [this.1.1.slot_lt hi, hinv.slot_lt hi]
  · rintro env it d_name loc w ⟨items, extra, hinv, hcount⟩ hlt
    have h := append_inv env it d_name ⟨hinv, hcount⟩ (by rw [← hcount]; exact hlt)
    refine ⟨fun w1 hu => h.2.2 w1 hu, fun loc1 w1 ha => ?_⟩
    have := h.1 _ _ ha
    have hlen : (items ++ [(w.next, d_name)]).length = items.length + 1 := by simp
    refine ⟨⟨_, extra, this.1.1, this.1.2⟩, by rw [this.1.2, hlen, hcount], this.2,
      ⟨w.next, ?_⟩, fun i hi => ?_⟩
    · have hat := inv_slot_at this.1.1
      rw [hcount]
      exact hat
    · rw [hcount] at hi
      have hi2 : i < (items ++ [(w.next, d_name)]).length := by rw [hlen]; omega
      rw [this.1.1.slot_lt hi2, hinv.slot_lt hi]
      simp [List.getElem_append_left, hi]
  · rintro env it e loc loc1 w w1 ⟨items, extra, hinv, hcount⟩ hb
    obtain ⟨added, hl, -⟩ := (loop_body_inv env it e ⟨hinv, hcount⟩).1 _ _ hb
    exact ⟨_, extra, hl.1, hl.2⟩
  · rintro env it entries loc loc1 w w1 ⟨items, extra, hinv, hcount⟩ hb
    obtain ⟨added, hl, -⟩ :=
      (names_loop_inv env it entries loc w items extra ⟨hinv, hcount⟩).1 _ _ hb
    exact ⟨_, extra, hl.1, hl.2⟩
  · intro w a count capacity i p s h hi hslot
    exact wellFormed_drop h hi hslot
  · intro env directory fds errno a count hout
    rcases read_content_names_heap env directory _ (acc_init fds errno) _ rfl with h | h | h
    · rw [h.1] at hout; cases hout
    · rw [h.2.1] at hout; cases hout
    · obtain ⟨-, a2, items, cap, -, hout2, -, hinv⟩ := h
      rw [hout2] at hout
      simp only [Option.some.injEq, Prod.mk.injEq] at hout
      obtain ⟨rfl, rfl⟩ := hout
      rw [hinv.slots_length]
      exact ⟨⟨_, _, hinv, rfl⟩, hinv.sentinel⟩
  · intro env directory fds errno a metadata count hout
    rcases read_contents_spec env directory _ (acc_init fds errno) _ rfl with h | h | h
    · rw [h.1] at hout; cases hout
    · rw [h.2.1] at hout; cases hout
    · obtain ⟨items, -, -, -, h⟩ := h
      rcases h with h | h | h
      · rw [h.2.2.1] at hout; cases hout
      · rw [h.2.2.2.1] at hout; cases hout
      · obtain ⟨-, sv, a2, m, cap, -, -, hout2, hinv, -⟩ := h
        rw [hout2] at hout
        simp only [Option.some.injEq, Prod.mk.injEq] at hout
        obtain ⟨rfl, -, rfl⟩ := hout
        have := hinv.sentinel
        rw [List.length_map] at this
        rw [hinv.slots_length]
        exact ⟨⟨_, _, hinv, by simp⟩, this⟩

/-- Every query in the sample `env_b_vanished` succeeds or fails with ENOENT. -/
theorem env_b_vanished_benign (k : Nat) (nm : Name) :
    (∃ st, env_b_vanished.fstatat k nm = StatResult.ok st)
      ∨ env_b_vanished.fstatat k nm = StatResult.fail ENOENT := by
  by_cases h1 : nm = "a"
  · exact Or.inl ⟨meta_a, by simp [env_b_vanished, Env.ok, h1]⟩
  · by_cases h2 : nm = "c"
    · exact Or.inl ⟨meta_c, by simp [env_b_vanished, Env.ok, h2]⟩
    · exact Or.inr (by simp [env_b_vanished, Env.ok, h1, h2])

/-- The listing `a`, `b`, `c` with `b` vanished yields `(a, meta_a)`,
`(c, meta_c)`. -/
theorem read_contents_keeps_resolved_in_order_witness :
    (read_contents env_b_vanished 3 (World.init [3] 0)).ret = Outcome.ret 0
    ∧ ∃ names metadata count,
        (read_contents env_b_vanished 3 (World.init [3] 0)).out
          = some (names, metadata, count)
        ∧ count = 2
        ∧ listing names count = [some "a", some "c"]
        ∧ records metadata count = [some meta_a, some meta_c] := by
  obtain ⟨h1, names, metadata, count, h2, h3, h4, h5⟩ :=
    read_contents_keeps_resolved_in_order env_b_vanished 3 [3] 0 4 (fun _ => rfl) rfl rfl rfl
      rfl (by decide) (by decide) (fun k nm _ => env_b_vanished_benign k nm)
  exact ⟨h1, names, metadata, count, h2, h3.trans (by decide), h4.trans (by decide),
    h5.trans (by decide)⟩

/-- A directory holding only the two dot entries yields the empty value. -/
theorem empty_directory_gives_null_witness :
    (∀ n ∈ env_empty.entries, n = "." ∨ n = "..")
    ∧ (read_content_names env_empty 3 (World.init [3] 0)).out = some (none, 0)
    ∧ (read_contents env_empty 3 (World.init [3] 0)).ret = Outcome.ret 0
    ∧ (read_contents env_empty 3 (World.init [3] 0)).out = some (none, none, 0)
    ∧ (read_contents env_empty 3 (World.init [3] 0)).world.queries = 0 := by
  have hempty : ∀ n ∈ env_empty.entries, n = "." ∨ n = ".." := by
    intro n hn
    simpa [env_empty, Env.ok] using hn
  obtain ⟨-, h2, h3, h4, -, h6, -⟩ :=
    empty_directory_gives_null env_empty 3 [3] 0 4 (fun _ => rfl) rfl rfl rfl rfl hempty
  exact ⟨hempty, h2, h3, h4, h6⟩

/-- With `b` vanished and the query for `c` refused the call fails and leaves
nothing allocated. -/
theorem read_contents_fatal_query_releases_all_witness :
    (read_contents env_c_refused 3 (World.init [3] 0)).ret = Outcome.ret (-1)
    ∧ (read_contents env_c_refused 3 (World.init [3] 0)).out = none
    ∧ (read_contents env_c_refused 3 (World.init [3] 0)).world.live = [] := by
  have hbefore : ∀ k nm2, k < 2 →
      (env_c_refused.entries.filter fun n => decide (n ≠ "." ∧ n ≠ "..")).get? k = some nm2 →
      (∃ st, env_c_refused.fstatat k nm2 = StatResult.ok st)
        ∨ env_c_refused.fstatat k nm2 = StatResult.fail ENOENT := by
    intro k nm2 hk hget
    have hk2 : k = 0 ∨ k = 1 := by omega
    rcases hk2 with rfl | rfl
    · have : nm2 = "a" := by
        have h : some "a" = some nm2 := hget
        exact (Option.some.inj h).symm
      subst this
      exact Or.inl ⟨meta_a, rfl⟩
    · have : nm2 = "b" := by
        have h : some "b" = some nm2 := hget
        exact (Option.some.inj h).symm
      subst this
      exact Or.inr rfl
  obtain ⟨h1, h2, h3, -⟩ :=
    read_contents_fatal_query_releases_all env_c_refused 3 [3] 0 4 2 "c" 13 (fun _ => rfl) rfl
      rfl rfl rfl (by decide) rfl rfl (by decide) hbefore
  exact ⟨h1, h2, h3⟩

/-- The array returned for `a`, `b`, `c` with `b` vanished holds two live
names followed by thirteen NULL slots. -/
theorem null_sentinel_invariant_witness :
    Sentinel (read_contents env_b_vanished 3 (World.init [3] 0)).world.live
      ⟨0, [Slot.name 1 "a", Slot.name 3 "c", Slot.null, Slot.null, Slot.null, Slot.null,
        Slot.null, Slot.null, Slot.null, Slot.null, Slot.null, Slot.null, Slot.null,
        Slot.null, Slot.null]⟩ 2 15 :=
  (null_sentinel_invariant.2.2.2.2.2.2.2.2 env_b_vanished 3 [3] 0 _ (some ⟨4, [meta_a, meta_c,
    Stat.zero]⟩) 2 (by decide)).2

/-- C5: when `fdopendir` fails the call closes the duplicate and releases the
name storage, but it does not return: it goes on to reset errno and to call
`readdir` on the NULL stream, which is undefined behaviour. -/
theorem fdopendir_failure_falls_through :
    (read_content_names env_open_fails 3 (World.init [3] 0)).ret = Outcome.undefined
    ∧ (read_content_names env_open_fails 3 (World.init [3] 0)).ret ≠ Outcome.ret (-1)
    ∧ (read_content_names env_open_fails 3 (World.init [3] 0)).world.trace
        = [Event.calloc 15 (some 0), Event.fcntl_dupfd 3 (some 4), Event.fdopendir 4 false,
            Event.close 4, Event.free 0, Event.readdir none] := by
  decide

/-- C6: when the only listed entry has vanished before its query,
`read_contents` returns 0 with count 0 but stores the name array and the
metadata array it allocated, not NULL. -/
theorem all_vanished_returns_non_null :
    (read_contents env_all_vanished 3 (World.init [3] 0)).ret = Outcome.ret 0
    ∧ (read_contents env_all_vanished 3 (World.init [3] 0)).out
        = some (some ⟨0, List.replicate 15 Slot.null⟩, some ⟨2, [Stat.zero]⟩, 0)
    ∧ (read_contents env_all_vanished 3 (World.init [3] 0)).world.live = [2, 0] := by
  decide

end DirectoryPosix
